import Mathlib

/-!
Verification of the minesweeper analysis engine: a shallow embedding of
`board.py` (solution-grid generation), `game.py` (reveal / flood fill, win and
loss transitions, first-click regeneration, flagging) and `analytics.py`
(border statistics, neighborhood heatmap, batch aggregation).

Grids are embedded as total functions `ℕ → ℕ → ℤ` holding the same sentinel
values the source uses: `-9` mine, `-1` hidden, `-2` flagged, `0..8` revealed
counts.  Random choices (`random.sample`, fresh `Board` objects) are
parametrised by explicit mine-coordinate lists / oracles.  The recursive flood
fill is given an explicit fuel argument; theorems are stated for any fuel
exceeding the number of hidden cells, which the recursion never exhausts.
-/

set_option maxHeartbeats 1000000

namespace Minesweeper

/-- Python `range(lo, hi)` as a list of naturals. -/
def rangeFromTo (lo hi : ℕ) : List ℕ := (List.range (hi - lo)).map (fun k => lo + k)

/-- Row-major list of all cells of a `h × w` grid, mirroring the nested
`for r in range(h): for c in range(w)` scan order used throughout the source. -/
def allCells (h w : ℕ) : List (ℕ × ℕ) :=
  (List.range h).flatMap (fun r => (List.range w).map (fun c => (r, c)))

/-- The clipped 3×3 window around `(r, c)`: the index set scanned by
`range(max(0, r-1), min(h, r+2)) × range(max(0, c-1), min(w, c+2))`
(`board.py` lines 75-76, `game.py` lines 142-143).  Since `r - 1` is truncated
subtraction on `ℕ`, it coincides with `max(0, r-1)`. -/
def window (h w r c : ℕ) : List (ℕ × ℕ) :=
  (rangeFromTo (r - 1) (min h (r + 2))).flatMap
    (fun i => (rangeFromTo (c - 1) (min w (c + 2))).map (fun j => (i, j)))

/-- The Moore neighbors of `(r, c)`: the clipped 3×3 window with the center
removed (the `if (i, j) == (r, c): continue` guard). -/
def neighborCells (h w r c : ℕ) : List (ℕ × ℕ) :=
  (window h w r c).filter (fun q => decide (q ≠ (r, c)))

/-- Functional update of one grid cell, modelling `a[r, c] = v`. -/
def updateCell (g : ℕ → ℕ → ℤ) (r c : ℕ) (v : ℤ) : ℕ → ℕ → ℤ :=
  fun i j => if i = r ∧ j = c then v else g i j

/-- `Board._place_mines` (`board.py` lines 46-59): starting from the zero grid,
write `-9` at every coordinate of the sampled mine list.  The randomness of
`random.sample` is modelled by taking the sampled list as a parameter; its
guarantees (distinct in-bounds coordinates, `num_mines` of them) become
hypotheses of the theorems. -/
def placeMines (mines : List (ℕ × ℕ)) : ℕ → ℕ → ℤ :=
  mines.foldl (fun b p => updateCell b p.1 p.2 (-9)) (fun _ _ => 0)

/-- The inner counting loop of `Board._calculate_numbers` (`board.py` lines
73-82): the number of cells of the clipped Moore neighborhood of `(r, c)`
currently holding `-9`. -/
def countAdjMines (b : ℕ → ℕ → ℤ) (h w r c : ℕ) : ℕ :=
  (neighborCells h w r c).countP (fun q => decide (b q.1 q.2 = -9))

/-- One iteration of the `_calculate_numbers` scan: skip mines, otherwise
overwrite the cell in place with its current adjacent-mine count. -/
def calcStep (h w : ℕ) (b : ℕ → ℕ → ℤ) (p : ℕ × ℕ) : ℕ → ℕ → ℤ :=
  if b p.1 p.2 = -9 then b else updateCell b p.1 p.2 (countAdjMines b h w p.1 p.2)

/-- `Board._calculate_numbers` (`board.py` lines 61-84): the in-place row-major
scan over all cells. -/
def calculateNumbers (h w : ℕ) (b : ℕ → ℕ → ℤ) : ℕ → ℕ → ℤ :=
  (allCells h w).foldl (calcStep h w) b

/-- The solution grid built by `Board.__init__` for a given sampled mine list. -/
def boardSolution (h w : ℕ) (mines : List (ℕ × ℕ)) : ℕ → ℕ → ℤ :=
  calculateNumbers h w (placeMines mines)

/-- A `Board` object: the solution grid `self.board` and the player view
`self.player_view`. -/
structure Board where
  board : ℕ → ℕ → ℤ
  player_view : ℕ → ℕ → ℤ

/-- `Board(height, width, num_mines)` with the sample drawn by
`random.sample` made explicit: fresh all-hidden player view. -/
def mkBoard (h w : ℕ) (mines : List (ℕ × ℕ)) : Board :=
  ⟨boardSolution h w mines, fun _ _ => -1⟩

/-- `MinesweeperGUI.reveal_cell` (`game.py` lines 129-146, identically
`highscore_manager.py` lines 118-129): bounds check, skip revealed (`>= 0`)
and flagged (`-2`) cells, copy the solution value into the view, and if that
value is `0` recurse over the clipped Moore neighborhood.  The Python
recursion terminates because every recursive call happens after one more cell
was revealed; the embedding makes that explicit with a fuel argument. -/
def revealCell (b : ℕ → ℕ → ℤ) (h w : ℕ) : ℕ → (ℕ → ℕ → ℤ) → ℕ → ℕ → (ℕ → ℕ → ℤ)
  | 0, pv, _, _ => pv
  | fuel+1, pv, r, c =>
    if r < h ∧ c < w then
      if 0 ≤ pv r c then pv
      else if pv r c = -2 then pv
      else
        let pv1 := updateCell pv r c (b r c)
        if b r c = 0 then
          (neighborCells h w r c).foldl (fun s q => revealCell b h w fuel s q.1 q.2) pv1
        else pv1
    else pv

/-- A cell that the reveal guards treat as available: value negative and not
flagged (in every reachable state this means exactly `-1`, HIDDEN). -/
def HiddenAt (pv : ℕ → ℕ → ℤ) (p : ℕ × ℕ) : Prop :=
  pv p.1 p.2 < 0 ∧ pv p.1 p.2 ≠ -2

/-- Cells reached by the cascade started at `s` on view `pv`: `s` itself (if
in bounds and available), and, inductively, any available Moore neighbor of a
reached zero-valued cell.  Flagged and already-revealed cells are never
entered, so they also block propagation. -/
inductive RevealReach (b pv : ℕ → ℕ → ℤ) (h w : ℕ) (s : ℕ × ℕ) : ℕ × ℕ → Prop
  | base : s.1 < h → s.2 < w → HiddenAt pv s → RevealReach b pv h w s s
  | step {q x : ℕ × ℕ} : RevealReach b pv h w s q → b q.1 q.2 = 0 →
      x ∈ neighborCells h w q.1 q.2 → HiddenAt pv x → RevealReach b pv h w s x

/-- Modelled from the spec: membership of `x` in the maximal 8-connected
component of 0-valued cells containing `s`, together with its numbered Moore
border — the region the spec's flood-propagation sentence says a reveal
uncovers, with no reference to the player view. -/
inductive ZeroConn (b : ℕ → ℕ → ℤ) (h w : ℕ) (s : ℕ × ℕ) : ℕ × ℕ → Prop
  | base : s.1 < h → s.2 < w → ZeroConn b h w s s
  | step {q x : ℕ × ℕ} : ZeroConn b h w s q → b q.1 q.2 = 0 →
      x ∈ neighborCells h w q.1 q.2 → ZeroConn b h w s x

instance (pv : ℕ → ℕ → ℤ) (p : ℕ × ℕ) : Decidable (HiddenAt pv p) := by
  unfold HiddenAt; infer_instance

/-- Number of in-grid cells the reveal guards would still enter. -/
def hiddenCount (h w : ℕ) (pv : ℕ → ℕ → ℤ) : ℕ :=
  (allCells h w).countP (fun p => decide (HiddenAt pv p))

/-- Full postcondition of one `revealCell` call: `D` is the set of cells it
newly reveals.  Those cells get their solution value, all others keep their
view value; every revealed cell is cascade-reachable; the target itself is
revealed whenever the guards pass; and no zero-valued revealed cell still has
an available Moore neighbor afterwards. -/
def RevealResult (b : ℕ → ℕ → ℤ) (h w fuel : ℕ) (pv : ℕ → ℕ → ℤ) (r c : ℕ)
    (D : ℕ × ℕ → Prop) : Prop :=
  (∀ x : ℕ × ℕ, D x → revealCell b h w fuel pv r c x.1 x.2 = b x.1 x.2) ∧
  (∀ x : ℕ × ℕ, ¬ D x → revealCell b h w fuel pv r c x.1 x.2 = pv x.1 x.2) ∧
  (∀ x : ℕ × ℕ, D x → RevealReach b pv h w (r, c) x) ∧
  (r < h → c < w → HiddenAt pv (r, c) → D (r, c)) ∧
  (∀ y : ℕ × ℕ, D y → b y.1 y.2 = 0 →
    ∀ x ∈ neighborCells h w y.1 y.2, ¬ HiddenAt (revealCell b h w fuel pv r c) x)

/-- Game status: `self.game_over` together with which terminal path set it. -/
inductive GStatus
  | playing
  | won
  | lost
deriving DecidableEq

/-- The mutable state `on_left_click` / `on_right_click` operate on. -/
structure GameState where
  board : Board
  status : GStatus
  first_click : Bool

/-- The `while self.board.board[r, c] == -9: self.board = Board(...)` loop of
`on_left_click` (`game.py` lines 90-94).  `boards` is the oracle of freshly
generated `Board` objects, consumed in order; `fuel` bounds the number of
regenerations (the theorems assume a non-mine board occurs within fuel). -/
def regenLoop (boards : ℕ → Board) (r c : ℕ) : ℕ → Board → ℕ → Board
  | 0, cur, _ => cur
  | fuel+1, cur, i =>
    if cur.board r c = -9 then regenLoop boards r c fuel (boards i) (i + 1) else cur

/-- `np.sum(self.board.player_view >= 0)` (`game.py` line 177). -/
def revealedCount (h w : ℕ) (pv : ℕ → ℕ → ℤ) : ℕ :=
  (allCells h w).countP (fun p => decide (0 ≤ pv p.1 p.2))

/-- `MinesweeperGUI.check_win` (`game.py` lines 176-191): transition to WON
when the game is not over and the revealed count equals
`height*width - num_mines` (Python integer arithmetic, hence the cast). -/
def checkWin (h w m : ℕ) (g : GameState) : GameState :=
  if g.status = GStatus.playing ∧ (revealedCount h w g.board.player_view : ℤ) = (h : ℤ) * w - m
  then { g with status := GStatus.won } else g

/-- `MinesweeperGUI.game_over_lose` (`game.py` lines 159-174): set the
terminal LOST status; the player view is not mutated (only button rendering). -/
def gameOverLose (g : GameState) : GameState := { g with status := GStatus.lost }

/-- `MinesweeperGUI.on_left_click` (`game.py` lines 82-101): early return when
the game is over, the cell is flagged, or the cell is revealed; first-click
regeneration loop; then either lose on a mine or reveal and check the win. -/
def onLeftClick (h w m : ℕ) (boards : ℕ → Board) (regenFuel revealFuel : ℕ)
    (g : GameState) (r c : ℕ) : GameState :=
  if g.status ≠ GStatus.playing then g
  else if g.board.player_view r c = -2 then g
  else if 0 ≤ g.board.player_view r c then g
  else
    let g1 := if g.first_click
      then { g with board := regenLoop boards r c regenFuel g.board 0, first_click := false }
      else g
    if g1.board.board r c = -9 then gameOverLose g1
    else
      checkWin h w m
        { g1 with board :=
          { g1.board with
            player_view := revealCell g1.board.board h w revealFuel g1.board.player_view r c } }

/-- `MinesweeperGUI.on_right_click` (`game.py` lines 103-127): no-op when the
game is over or the cell is revealed; otherwise toggle HIDDEN (`-1`) and
FLAGGED (`-2`).  The mine-counter label is rendering only. -/
def onRightClick (g : GameState) (r c : ℕ) : GameState :=
  if g.status ≠ GStatus.playing then g
  else if 0 ≤ g.board.player_view r c then g
  else if g.board.player_view r c = -1 then
    { g with board := { g.board with player_view := updateCell g.board.player_view r c (-2) } }
  else if g.board.player_view r c = -2 then
    { g with board := { g.board with player_view := updateCell g.board.player_view r c (-1) } }
  else g

/-- A player move: left click (reveal) or right click (flag toggle). -/
inductive GAction
  | left : ℕ → ℕ → GAction
  | flag : ℕ → ℕ → GAction

/-- Dispatch one move to its handler. -/
def applyAction (h w m : ℕ) (boards : ℕ → Board) (regenFuel revealFuel : ℕ)
    (g : GameState) : GAction → GameState
  | GAction.left r c => onLeftClick h w m boards regenFuel revealFuel g r c
  | GAction.flag r c => onRightClick g r c

/-- A whole session: fold a list of moves over the state. -/
def runGame (h w m : ℕ) (boards : ℕ → Board) (regenFuel revealFuel : ℕ)
    (g0 : GameState) (acts : List GAction) : GameState :=
  acts.foldl (applyAction h w m boards regenFuel revealFuel) g0

/-- Well-formedness of a solution grid: every in-grid cell is a mine or holds
a count in `[0, 8]`, and zero-valued cells have no mine among their Moore
neighbors.  `boardSolution` produces such grids. -/
def WFSol (h w : ℕ) (b : ℕ → ℕ → ℤ) : Prop :=
  (∀ i j, i < h → j < w → b i j = -9 ∨ (0 ≤ b i j ∧ b i j ≤ 8)) ∧
  (∀ i j, i < h → j < w → b i j = 0 → ∀ q ∈ neighborCells h w i j, 0 ≤ b q.1 q.2)

/-- The player-view invariant: every cell is HIDDEN, FLAGGED, or a revealed
count in `[0, 8]` — in particular the MINE sentinel never appears. -/
def PvInv (pv : ℕ → ℕ → ℤ) : Prop :=
  ∀ i j, pv i j = -1 ∨ pv i j = -2 ∨ (0 ≤ pv i j ∧ pv i j ≤ 8)

/-- `np.sum(solution == v)` over the grid. -/
def countCellsEq (sol : ℕ → ℕ → ℤ) (h w : ℕ) (v : ℤ) : ℕ :=
  (allCells h w).countP (fun p => decide (sol p.1 p.2 = v))

/-- Modelled from the spec: `scipy.ndimage.label` with a full 3×3 structuring
element is an external library; its 8-connected component traversal is
modelled as a fuelled worklist flood fill collecting the component of the
seed cell into the visited list. -/
def growComp (mask : ℕ × ℕ → Bool) (h w : ℕ) : ℕ → List (ℕ × ℕ) → List (ℕ × ℕ) → List (ℕ × ℕ)
  | 0, _, comp => comp
  | fuel+1, frontier, comp =>
    match frontier with
    | [] => comp
    | p :: rest =>
      if p ∈ comp then growComp mask h w fuel rest comp
      else if mask p then
        growComp mask h w fuel (rest ++ neighborCells h w p.1 p.2) (p :: comp)
      else growComp mask h w fuel rest comp

/-- `_find_clusters` (`analytics.py` lines 9-18): the number of 8-connected
components of the mine mask, via the modelled labeling traversal. -/
def findClusters (sol : ℕ → ℕ → ℤ) (h w : ℕ) : ℕ :=
  ((allCells h w).foldl (fun (st : ℕ × List (ℕ × ℕ)) p =>
    if sol p.1 p.2 = -9 ∧ p ∉ st.2 then
      (st.1 + 1, growComp (fun q => decide (sol q.1 q.2 = -9)) h w ((h * w + 1) * 9) [p] st.2)
    else st) (0, [])).1

/-- `_find_largest_opening` (`analytics.py` lines 20-33): size of the largest
8-connected component of 0-valued cells, 0 when there is none. -/
def findLargestOpening (sol : ℕ → ℕ → ℤ) (h w : ℕ) : ℕ :=
  ((allCells h w).foldl (fun (st : ℕ × List (ℕ × ℕ)) p =>
    if sol p.1 p.2 = 0 ∧ p ∉ st.2 then
      let comp := growComp (fun q => decide (sol q.1 q.2 = 0)) h w ((h * w + 1) * 9) [p] st.2
      (max st.1 (comp.length - st.2.length), comp)
    else st) (0, [])).1

/-- `_count_edge_mines` (`analytics.py` lines 35-45): the four slice sums
`board[0, :]`, `board[h-1, :]`, `board[1:h-1, 0]`, `board[1:h-1, w-1]`
compared against the mine sentinel. -/
def countEdgeMines (b : ℕ → ℕ → ℤ) (h w : ℕ) : ℕ :=
  (List.range w).countP (fun j => decide (b 0 j = -9)) +
  (List.range w).countP (fun j => decide (b (h - 1) j = -9)) +
  (rangeFromTo 1 (h - 1)).countP (fun i => decide (b i 0 = -9)) +
  (rangeFromTo 1 (h - 1)).countP (fun i => decide (b i (w - 1) = -9))

/-- `_count_edge_zeros` (`analytics.py` lines 47-57): the same four slices
compared against 0. -/
def countEdgeZeros (b : ℕ → ℕ → ℤ) (h w : ℕ) : ℕ :=
  (List.range w).countP (fun j => decide (b 0 j = 0)) +
  (List.range w).countP (fun j => decide (b (h - 1) j = 0)) +
  (rangeFromTo 1 (h - 1)).countP (fun i => decide (b i 0 = 0)) +
  (rangeFromTo 1 (h - 1)).countP (fun i => decide (b i (w - 1) = 0))

/-- The multiset of cells the two edge counters scan, in scan order. -/
def edgeCells (h w : ℕ) : List (ℕ × ℕ) :=
  (List.range w).map (fun j => ((0 : ℕ), j)) ++
  (List.range w).map (fun j => (h - 1, j)) ++
  (rangeFromTo 1 (h - 1)).map (fun i => (i, (0 : ℕ))) ++
  (rangeFromTo 1 (h - 1)).map (fun i => (i, w - 1))

/-- A cell on row 0, row `h-1`, column 0 or column `w-1` of the grid. -/
def IsBorder (h w : ℕ) (p : ℕ × ℕ) : Prop :=
  p.1 < h ∧ p.2 < w ∧ (p.1 = 0 ∨ p.1 = h - 1 ∨ p.2 = 0 ∨ p.2 = w - 1)

instance (h w : ℕ) (p : ℕ × ℕ) : Decidable (IsBorder h w p) := by
  unfold IsBorder; infer_instance

/-- `scipy.ndimage.convolve(mine_map, np.ones((3,3)), mode='constant', cval=0)`
at one cell (`analytics.py` lines 88-89): with zero padding the symmetric 3×3
ones kernel sums the clipped 3×3 window — including the center cell. -/
def convolveAt (m : ℕ → ℕ → ℕ) (h w r c : ℕ) : ℕ :=
  ((window h w r c).map (fun q => m q.1 q.2)).sum

/-- The Moore-neighborhood mine tally of a cell: the window sum without the
center (what the spec calls the cell's Moore neighborhood count). -/
def mooreCount (m : ℕ → ℕ → ℕ) (h w r c : ℕ) : ℕ :=
  ((neighborCells h w r c).map (fun q => m q.1 q.2)).sum

/-- The 0/1 mine mask `(solution == -9).astype(int)`. -/
def mineMap (sol : ℕ → ℕ → ℤ) : ℕ → ℕ → ℕ :=
  fun i j => if sol i j = -9 then 1 else 0

/-- Modelled from numpy semantics: dividing a float array by the integer 0
emits a warning and yields NaN entries, it does not raise; NaN is modelled as
`none`. -/
def floatDiv (x : ℚ) (n : ℕ) : Option ℚ :=
  if n = 0 then none else some (x / n)

/-- The mutable collectors of `generate_analytics_data` (`analytics.py` lines
65-74) immediately before the simulation loop. -/
structure AnalyticsAcc where
  whiteCellCounts : List ℕ
  numberCounts : ℕ → ℕ
  clusterCounts : List ℕ
  neighborhoodSum : ℕ → ℕ → ℚ
  largestOpeningSizes : List ℕ
  edgeMineCounts : List ℕ
  edgeZeroCounts : List ℕ

/-- The tuple returned by `generate_analytics_data` (`analytics.py` lines
99-103), with the finalized average heatmap. -/
structure AnalyticsData where
  whiteCellCounts : List ℕ
  numberCounts : ℕ → ℕ
  clusterCounts : List ℕ
  neighborhoodAvg : ℕ → ℕ → Option ℚ
  largestOpeningSizes : List ℕ
  edgeMineCounts : List ℕ
  edgeZeroCounts : List ℕ

/-- One iteration of the simulation loop (`analytics.py` lines 78-94): build a
board from the trial's sampled mines and append / accumulate every statistic. -/
def analyticsStep (h w : ℕ) (acc : AnalyticsAcc) (mines : List (ℕ × ℕ)) : AnalyticsAcc :=
  let sol := boardSolution h w mines
  { whiteCellCounts := acc.whiteCellCounts ++ [countCellsEq sol h w 0]
    numberCounts := (List.range 9).foldl
      (fun f j => fun j' => if j' = j then f j' + countCellsEq sol h w (j : ℤ) else f j')
      acc.numberCounts
    clusterCounts := acc.clusterCounts ++ [findClusters sol h w]
    neighborhoodSum := fun i j => acc.neighborhoodSum i j + (convolveAt (mineMap sol) h w i j : ℚ)
    largestOpeningSizes := acc.largestOpeningSizes ++ [findLargestOpening sol h w]
    edgeMineCounts := acc.edgeMineCounts ++ [countEdgeMines sol h w]
    edgeZeroCounts := acc.edgeZeroCounts ++ [countEdgeZeros sol h w] }

/-- `generate_analytics_data(height, width, num_mines, n_boards)` (the version
at `analytics.py` lines 59-103): the per-trial mine samples are explicit, with
`n_boards = trials.length`; finalization divides the per-cell running sum by
the trial count. -/
def generateAnalyticsData (h w : ℕ) (trials : List (List (ℕ × ℕ))) : AnalyticsData :=
  let acc := trials.foldl (analyticsStep h w)
    ⟨[], fun _ => 0, [], fun _ _ => 0, [], [], []⟩
  { whiteCellCounts := acc.whiteCellCounts
    numberCounts := acc.numberCounts
    clusterCounts := acc.clusterCounts
    neighborhoodAvg := fun i j => floatDiv (acc.neighborhoodSum i j) trials.length
    largestOpeningSizes := acc.largestOpeningSizes
    edgeMineCounts := acc.edgeMineCounts
    edgeZeroCounts := acc.edgeZeroCounts }

/-- A 1×9 strip whose only mine sits at the right end: cells 0..6 are zeros,
cell 7 holds 1. -/
def bC2 : ℕ → ℕ → ℤ := boardSolution 1 9 [(0, 8)]

/-- A player view flagging cell `(0, 1)` of the strip, all else hidden. -/
def pvC2 : ℕ → ℕ → ℤ := fun i j => if i = 0 ∧ j = 1 then -2 else -1

/-- A finished (lost) 2×2 game used to exercise the terminal no-op guards. -/
def gLostW : GameState := ⟨mkBoard 2 2 [(0, 0)], GStatus.lost, false⟩

/-- A playing 2×2 game whose cell `(1, 1)` is already revealed. -/
def gRevW : GameState :=
  ⟨⟨boardSolution 2 2 [(0, 0)], fun i j => if i = 1 ∧ j = 1 then 1 else -1⟩,
   GStatus.playing, false⟩

/-- A fresh 1×2 game with one mine at `(0, 1)`, past its first click. -/
def gC3W : GameState := ⟨mkBoard 1 2 [(0, 1)], GStatus.playing, false⟩

/-- A 1×3 game before its first click whose current board has a mine at
`(0, 0)` and whose player flagged `(0, 1)`. -/
def gC5 : GameState :=
  ⟨⟨boardSolution 1 3 [(0, 0)], fun i j => if i = 0 ∧ j = 1 then -2 else -1⟩,
   GStatus.playing, true⟩

/-- The regeneration oracle for the 1×3 game: every fresh board has its mine
at `(0, 2)`. -/
def boardsC5 : ℕ → Board := fun _ => mkBoard 1 3 [(0, 2)]

/-- A fresh 1×3 game (all hidden, first click pending) with a mine at
`(0, 0)`. -/
def gFreshW : GameState := ⟨mkBoard 1 3 [(0, 0)], GStatus.playing, true⟩

/-- The state invariant threaded through a whole session: the player view
holds only HIDDEN, FLAGGED, or counts in `[0, 8]`, and the current solution
grid is well formed. -/
def GInv (h w : ℕ) (g : GameState) : Prop :=
  PvInv g.board.player_view ∧ WFSol h w g.board.board


lemma mem_rangeFromTo {lo hi x : ℕ} : x ∈ rangeFromTo lo hi ↔ lo ≤ x ∧ x < hi := by
  simp only [rangeFromTo, List.mem_map, List.mem_range]
  constructor
  · rintro ⟨k, hk, rfl⟩; omega
  · intro hx; exact ⟨x - lo, by omega, by omega⟩

lemma rangeFromTo_nodup (lo hi : ℕ) : (rangeFromTo lo hi).Nodup :=
  (List.nodup_range _).map (fun a b hab => by omega)

lemma mem_allCells {h w : ℕ} {p : ℕ × ℕ} : p ∈ allCells h w ↔ p.1 < h ∧ p.2 < w := by
  obtain ⟨r, c⟩ := p
  simp [allCells, List.mem_flatMap, List.mem_map, List.mem_range]

lemma allCells_nodup (h w : ℕ) : (allCells h w).Nodup := by
  refine List.nodup_flatMap.2 ⟨?_, ?_⟩
  · intro r _
    exact (List.nodup_range w).map (fun a b hab => by simpa using congrArg Prod.snd hab)
  · refine (List.pairwise_lt_range h).imp ?_
    intro a b hab
    intro x hxa hxb
    simp only [List.mem_map, List.mem_range] at hxa hxb
    obtain ⟨c1, _, rfl⟩ := hxa
    obtain ⟨c2, _, h2⟩ := hxb
    have := congrArg Prod.fst h2
    simp at this; omega

lemma length_allCells (h w : ℕ) : (allCells h w).length = h * w := by
  simp [allCells, List.length_flatMap, Function.comp]
  induction h with
  | zero => simp
  | succ n ih => simp [List.range_succ, ih]; ring

lemma mem_window {h w r c : ℕ} {q : ℕ × ℕ} :
    q ∈ window h w r c ↔
      r - 1 ≤ q.1 ∧ q.1 < min h (r + 2) ∧ c - 1 ≤ q.2 ∧ q.2 < min w (c + 2) := by
  obtain ⟨i, j⟩ := q
  simp only [window, List.mem_flatMap, List.mem_map]
  constructor
  · rintro ⟨a, ha, b, hb, hab⟩
    rw [Prod.mk.injEq] at hab
    obtain ⟨rfl, rfl⟩ := hab
    rw [mem_rangeFromTo] at ha hb
    exact ⟨ha.1, ha.2, hb.1, hb.2⟩
  · rintro ⟨h1, h2, h3, h4⟩
    exact ⟨i, mem_rangeFromTo.2 ⟨h1, h2⟩, j, mem_rangeFromTo.2 ⟨h3, h4⟩, rfl⟩

lemma window_nodup (h w r c : ℕ) : (window h w r c).Nodup := by
  refine List.nodup_flatMap.2 ⟨?_, ?_⟩
  · intro i _
    exact (rangeFromTo_nodup _ _).map (fun a b hab => by simpa using congrArg Prod.snd hab)
  · have hp : List.Pairwise Ne (rangeFromTo (r - 1) (min h (r + 2))) :=
      rangeFromTo_nodup _ _
    refine hp.imp ?_
    intro a b hab x hxa hxb
    simp only [List.mem_map] at hxa hxb
    obtain ⟨c1, _, rfl⟩ := hxa
    obtain ⟨c2, _, h2⟩ := hxb
    exact hab (by simpa using (congrArg Prod.fst h2).symm)

lemma mem_neighborCells {h w r c : ℕ} {q : ℕ × ℕ} :
    q ∈ neighborCells h w r c ↔
      (r - 1 ≤ q.1 ∧ q.1 < min h (r + 2) ∧ c - 1 ≤ q.2 ∧ q.2 < min w (c + 2)) ∧
        q ≠ (r, c) := by
  simp [neighborCells, List.mem_filter, mem_window]

lemma neighborCells_inb {h w r c : ℕ} {q : ℕ × ℕ} (hq : q ∈ neighborCells h w r c) :
    q.1 < h ∧ q.2 < w := by
  rcases mem_neighborCells.1 hq with ⟨⟨_, h2, _, h4⟩, _⟩
  omega

lemma neighborCells_nodup (h w r c : ℕ) : (neighborCells h w r c).Nodup :=
  (window_nodup h w r c).filter _

lemma center_mem_window {h w r c : ℕ} (hr : r < h) (hc : c < w) :
    (r, c) ∈ window h w r c := by
  rw [mem_window]; omega

lemma window_length_le (h w r c : ℕ) : (window h w r c).length ≤ 9 := by
  have hlen : ∀ lo hi : ℕ, hi ≤ lo + 3 → (rangeFromTo lo hi).length ≤ 3 := by
    intro lo hi hle
    simp only [rangeFromTo, List.length_map, List.length_range]
    omega
  have h1 : (rangeFromTo (r - 1) (min h (r + 2))).length ≤ 3 := hlen _ _ (by omega)
  have h2 : (rangeFromTo (c - 1) (min w (c + 2))).length ≤ 3 := hlen _ _ (by omega)
  have hw2 : (window h w r c).length =
      (rangeFromTo (r - 1) (min h (r + 2))).length *
        (rangeFromTo (c - 1) (min w (c + 2))).length := by
    simp [window, List.length_flatMap, Function.comp_def, List.map_const',
      List.sum_replicate, smul_eq_mul]
  calc (window h w r c).length
      ≤ 3 * 3 := hw2 ▸ Nat.mul_le_mul h1 h2
    _ = 9 := rfl

lemma countP_not_add {α : Type} (p : α → Bool) (l : List α) :
    l.countP (fun a => !(p a)) + l.countP p = l.length := by
  induction l with
  | nil => simp
  | cons a t ih =>
    rcases Bool.eq_false_or_eq_true (p a) with hpa | hpa <;>
      simp [List.countP_cons, hpa] <;> omega

lemma neighborCells_length_le {h w r c : ℕ} (hr : r < h) (hc : c < w) :
    (neighborCells h w r c).length ≤ 8 := by
  have hmem := center_mem_window hr hc
  have hpos : 0 < (window h w r c).countP (fun q => decide (q = (r, c))) :=
    List.countP_pos_iff.2 ⟨(r, c), hmem, by simp⟩
  have hsplit : (window h w r c).countP (fun q => !(decide (q = (r, c))))
      + (window h w r c).countP (fun q => decide (q = (r, c)))
      = (window h w r c).length :=
    countP_not_add _ _
  have hfilt : (neighborCells h w r c).length
      = (window h w r c).countP (fun q => !(decide (q = (r, c)))) := by
    rw [neighborCells, ← List.countP_eq_length_filter]
    exact List.countP_congr (fun x _ => by simp)
  have h9 := window_length_le h w r c
  omega

lemma updateCell_self (g : ℕ → ℕ → ℤ) (r c : ℕ) (v : ℤ) : updateCell g r c v r c = v := by
  simp [updateCell]

lemma updateCell_other {g : ℕ → ℕ → ℤ} {r c i j : ℕ} (v : ℤ) (hne : ¬(i = r ∧ j = c)) :
    updateCell g r c v i j = g i j := by
  simp [updateCell, hne]

lemma countP_lt_of_strict {α : Type} {l : List α} {p q : α → Bool}
    (hpq : ∀ x ∈ l, p x → q x) (x0 : α) (hx0 : x0 ∈ l) (hq0 : q x0) (hp0 : ¬ p x0) :
    l.countP p < l.countP q := by
  induction l with
  | nil => cases hx0
  | cons a t ih =>
    have hmono : t.countP p ≤ t.countP q :=
      List.countP_mono_left (fun x hx => hpq x (List.mem_cons_of_mem a hx))
    rcases List.mem_cons.1 hx0 with rfl | hx0t
    · have hpa : p x0 = false := by simpa using hp0
      simp [List.countP_cons, hpa, hq0]
      omega
    · have hlt := ih (fun x hx => hpq x (List.mem_cons_of_mem a hx)) hx0t
      by_cases hpa : p a = true
      · have hqa : q a = true := hpq a (List.mem_cons_self a t) hpa
        simp [List.countP_cons, hpa, hqa]
        omega
      · have hpa' : p a = false := by simpa using hpa
        by_cases hqa : q a = true
        · simp [List.countP_cons, hpa', hqa]; omega
        · have hqa' : q a = false := by simpa using hqa
          simp [List.countP_cons, hpa', hqa']; omega

lemma placeMines_foldl (L : List (ℕ × ℕ)) (b0 : ℕ → ℕ → ℤ) (i j : ℕ) :
    (L.foldl (fun b p => updateCell b p.1 p.2 (-9)) b0) i j
      = if (i, j) ∈ L then -9 else b0 i j := by
  induction L generalizing b0 with
  | nil => simp
  | cons p t ih =>
    rw [List.foldl_cons, ih]
    by_cases hij : (i, j) ∈ t
    · rw [if_pos hij, if_pos (List.mem_cons_of_mem p hij)]
    · rw [if_neg hij]
      by_cases hp : (i, j) = p
      · have h1 := Prod.ext_iff.1 hp
        rw [if_pos (List.mem_cons.2 (Or.inl hp))]
        unfold updateCell
        rw [if_pos ⟨h1.1, h1.2⟩]
      · rw [if_neg (by simp [List.mem_cons, hp, hij])]
        apply updateCell_other
        rintro ⟨rfl, rfl⟩
        exact hp rfl

lemma placeMines_eq (mines : List (ℕ × ℕ)) (i j : ℕ) :
    placeMines mines i j = if (i, j) ∈ mines then -9 else 0 :=
  placeMines_foldl mines _ i j

lemma placeMines_mine_iff (mines : List (ℕ × ℕ)) (i j : ℕ) :
    placeMines mines i j = -9 ↔ (i, j) ∈ mines := by
  rw [placeMines_eq]
  by_cases hm : (i, j) ∈ mines <;> simp [hm]

lemma calcStep_other {h w : ℕ} {b : ℕ → ℕ → ℤ} {p : ℕ × ℕ} {i j : ℕ}
    (hne : ¬(i = p.1 ∧ j = p.2)) : calcStep h w b p i j = b i j := by
  unfold calcStep
  by_cases hm : b p.1 p.2 = -9
  · simp [hm]
  · simp [hm, updateCell_other _ hne]

lemma calcStep_mine_iff {h w : ℕ} {mines : List (ℕ × ℕ)} {b : ℕ → ℕ → ℤ} (p : ℕ × ℕ)
    (hInv : ∀ i j, b i j = -9 ↔ (i, j) ∈ mines) :
    ∀ i j, calcStep h w b p i j = -9 ↔ (i, j) ∈ mines := by
  obtain ⟨p1, p2⟩ := p
  intro i j
  unfold calcStep
  by_cases hm : b p1 p2 = -9
  · rw [if_pos hm]; exact hInv i j
  · rw [if_neg hm]
    by_cases hij : i = p1 ∧ j = p2
    · obtain ⟨rfl, rfl⟩ := hij
      rw [updateCell_self]
      constructor
      · intro habs
        have h0 : (0 : ℤ) ≤ (countAdjMines b h w i j : ℤ) := Int.natCast_nonneg _
        omega
      · intro hmem
        exact absurd ((hInv i j).2 hmem) hm
    · rw [updateCell_other _ hij]; exact hInv i j

lemma foldl_calcStep_mine_iff {h w : ℕ} {mines : List (ℕ × ℕ)} :
    ∀ (L : List (ℕ × ℕ)) (b : ℕ → ℕ → ℤ),
      (∀ i j, b i j = -9 ↔ (i, j) ∈ mines) →
      ∀ i j, (L.foldl (calcStep h w) b) i j = -9 ↔ (i, j) ∈ mines := by
  intro L
  induction L with
  | nil => intro b hInv; exact hInv
  | cons p t ih =>
    intro b hInv
    exact ih _ (calcStep_mine_iff p hInv)

lemma boardSolution_mine_iff (h w : ℕ) (mines : List (ℕ × ℕ)) (i j : ℕ) :
    boardSolution h w mines i j = -9 ↔ (i, j) ∈ mines :=
  foldl_calcStep_mine_iff (allCells h w) _ (placeMines_mine_iff mines) i j

lemma countAdjMines_congr {b b' : ℕ → ℕ → ℤ} {h w r c : ℕ}
    (hagree : ∀ q ∈ neighborCells h w r c, (b q.1 q.2 = -9 ↔ b' q.1 q.2 = -9)) :
    countAdjMines b h w r c = countAdjMines b' h w r c :=
  List.countP_congr (fun x hx => by
    constructor <;> intro hd <;> simp only [decide_eq_true_eq] at hd ⊢
    · exact (hagree x hx).1 hd
    · exact (hagree x hx).2 hd)

lemma foldl_calcStep_untouched {h w : ℕ} :
    ∀ (L : List (ℕ × ℕ)) (b : ℕ → ℕ → ℤ) (r c : ℕ),
      (∀ q ∈ L, q ≠ (r, c)) → (L.foldl (calcStep h w) b) r c = b r c := by
  intro L
  induction L with
  | nil => intro b r c _; rfl
  | cons p t ih =>
    intro b r c hne
    rw [List.foldl_cons, ih _ r c (fun q hq => hne q (List.mem_cons_of_mem p hq))]
    refine calcStep_other ?_
    rintro ⟨rfl, rfl⟩
    exact hne p (List.mem_cons_self p t) rfl

lemma foldl_calcStep_value {h w : ℕ} {mines : List (ℕ × ℕ)} :
    ∀ (L : List (ℕ × ℕ)) (b : ℕ → ℕ → ℤ),
      (∀ i j, b i j = -9 ↔ (i, j) ∈ mines) →
      ∀ r c, (r, c) ∈ L → (r, c) ∉ mines →
        (L.foldl (calcStep h w) b) r c
          = (countAdjMines (placeMines mines) h w r c : ℤ) := by
  intro L
  induction L with
  | nil => intro b _ r c hmem; cases hmem
  | cons p t ih =>
    intro b hInv r c hmem hnm
    by_cases hin : (r, c) ∈ t
    · exact ih _ (calcStep_mine_iff p hInv) r c hin hnm
    · have hp : p = (r, c) := by
        rcases List.mem_cons.1 hmem with heq | hin2
        · exact heq.symm
        · exact absurd hin2 hin
      subst hp
      rw [List.foldl_cons, foldl_calcStep_untouched t _ r c ?notin]
      case notin =>
        intro q hq hq2
        exact hin (hq2 ▸ hq)
      have hbm : ¬ b r c = -9 := fun habs => hnm ((hInv r c).1 habs)
      unfold calcStep
      simp only [hbm, if_false]
      rw [updateCell_self]
      congr 1
      exact countAdjMines_congr (fun q _ => by
        rw [hInv q.1 q.2, placeMines_mine_iff])

lemma boardSolution_value {h w : ℕ} {mines : List (ℕ × ℕ)} {r c : ℕ}
    (hr : r < h) (hc : c < w) (hnm : (r, c) ∉ mines) :
    boardSolution h w mines r c = (countAdjMines (placeMines mines) h w r c : ℤ) :=
  foldl_calcStep_value (allCells h w) _ (placeMines_mine_iff mines) r c
    (mem_allCells.2 ⟨hr, hc⟩) hnm

lemma countAdjMines_placeMines_eq_mem {h w r c : ℕ} (mines : List (ℕ × ℕ)) :
    countAdjMines (placeMines mines) h w r c
      = (neighborCells h w r c).countP (fun q => decide (q ∈ mines)) :=
  List.countP_congr (fun x _ => by
    simp only [decide_eq_true_eq]
    rw [placeMines_mine_iff])

lemma countP_mem_eq_length {l mines : List (ℕ × ℕ)} (hl : l.Nodup) (hm : mines.Nodup)
    (hsub : ∀ p ∈ mines, p ∈ l) :
    l.countP (fun p => decide (p ∈ mines)) = mines.length := by
  rw [List.countP_eq_length_filter]
  have hnodf : (l.filter (fun p => decide (p ∈ mines))).Nodup := hl.filter _
  have hperm : (l.filter (fun p => decide (p ∈ mines))).Perm mines := by
    apply List.perm_of_nodup_nodup_toFinset_eq hnodf hm
    ext x
    simp only [List.mem_toFinset, List.mem_filter, decide_eq_true_eq]
    exact ⟨fun hx => hx.2, fun hx => ⟨hsub x hx, hx⟩⟩
  exact hperm.length_eq

lemma boardSolution_mineCount {h w : ℕ} {mines : List (ℕ × ℕ)} (hm : mines.Nodup)
    (hin : ∀ p ∈ mines, p.1 < h ∧ p.2 < w) :
    (allCells h w).countP (fun p => decide (boardSolution h w mines p.1 p.2 = -9))
      = mines.length := by
  rw [List.countP_congr (q := fun p => decide (p ∈ mines))
    (fun x _ => by
      simp only [decide_eq_true_eq]
      exact boardSolution_mine_iff h w mines x.1 x.2)]
  exact countP_mem_eq_length (allCells_nodup h w) hm
    (fun p hp => mem_allCells.2 (hin p hp))

lemma countAdjMines_le_eight {b : ℕ → ℕ → ℤ} {h w r c : ℕ} (hr : r < h) (hc : c < w) :
    countAdjMines b h w r c ≤ 8 :=
  le_trans (List.countP_le_length _) (neighborCells_length_le hr hc)

lemma boardSolution_WFSol (h w : ℕ) (mines : List (ℕ × ℕ)) :
    WFSol h w (boardSolution h w mines) := by
  constructor
  · intro i j hi hj
    by_cases hm : (i, j) ∈ mines
    · exact Or.inl ((boardSolution_mine_iff h w mines i j).2 hm)
    · right
      rw [boardSolution_value hi hj hm]
      have h8 : countAdjMines (placeMines mines) h w i j ≤ 8 :=
        countAdjMines_le_eight hi hj
      constructor
      · exact Int.natCast_nonneg _
      · exact_mod_cast h8
  · intro i j hi hj hz q hq
    have hm : (i, j) ∉ mines := fun habs => by
      have := (boardSolution_mine_iff h w mines i j).2 habs
      omega
    have hval := boardSolution_value hi hj hm
    rw [hz] at hval
    have hcnt : countAdjMines (placeMines mines) h w i j = 0 := by
      omega
    rw [countAdjMines_placeMines_eq_mem] at hcnt
    have hqm : q ∉ mines := by
      have := List.countP_eq_zero.1 hcnt q hq
      simpa using this
    have hqb := neighborCells_inb hq
    rw [boardSolution_value hqb.1 hqb.2 hqm]
    exact Int.natCast_nonneg _

lemma revealCell_oob {b : ℕ → ℕ → ℤ} {h w : ℕ} {pv : ℕ → ℕ → ℤ} {r c : ℕ}
    (hoob : ¬(r < h ∧ c < w)) : ∀ fuel, revealCell b h w fuel pv r c = pv := by
  intro fuel
  cases fuel with
  | zero => rfl
  | succ f => simp [revealCell, hoob]

lemma revealCell_noop_nonneg {b : ℕ → ℕ → ℤ} {h w : ℕ} {pv : ℕ → ℕ → ℤ} {r c : ℕ}
    (h0 : 0 ≤ pv r c) : ∀ fuel, revealCell b h w fuel pv r c = pv := by
  intro fuel
  cases fuel with
  | zero => rfl
  | succ f =>
    by_cases hb : r < h ∧ c < w
    · simp [revealCell, hb, h0]
    · simp [revealCell, hb]

lemma revealCell_noop_flag {b : ℕ → ℕ → ℤ} {h w : ℕ} {pv : ℕ → ℕ → ℤ} {r c : ℕ}
    (h2 : pv r c = -2) : ∀ fuel, revealCell b h w fuel pv r c = pv := by
  intro fuel
  cases fuel with
  | zero => rfl
  | succ f =>
    by_cases hb : r < h ∧ c < w
    · have h0 : ¬ 0 ≤ pv r c := by omega
      simp [revealCell, hb, h0, h2]
    · simp [revealCell, hb]

lemma revealCell_enter_cascade {b : ℕ → ℕ → ℤ} {h w : ℕ} {pv : ℕ → ℕ → ℤ} {r c : ℕ}
    (fuel : ℕ) (hb : r < h ∧ c < w) (h0 : ¬ 0 ≤ pv r c) (h2 : pv r c ≠ -2)
    (hz : b r c = 0) :
    revealCell b h w (fuel+1) pv r c
      = (neighborCells h w r c).foldl (fun s q => revealCell b h w fuel s q.1 q.2)
          (updateCell pv r c (b r c)) := by
  simp [revealCell, hb, h0, h2, hz]

lemma revealCell_enter_plain {b : ℕ → ℕ → ℤ} {h w : ℕ} {pv : ℕ → ℕ → ℤ} {r c : ℕ}
    (fuel : ℕ) (hb : r < h ∧ c < w) (h0 : ¬ 0 ≤ pv r c) (h2 : pv r c ≠ -2)
    (hnz : b r c ≠ 0) :
    revealCell b h w (fuel+1) pv r c = updateCell pv r c (b r c) := by
  simp [revealCell, hb, h0, h2, hnz]

lemma reach_src {b pv : ℕ → ℕ → ℤ} {h w : ℕ} {s x : ℕ × ℕ}
    (hr : RevealReach b pv h w s x) : s.1 < h ∧ s.2 < w ∧ HiddenAt pv s := by
  induction hr with
  | base h1 h2 h3 => exact ⟨h1, h2, h3⟩
  | step hq hbz hn hh ih => exact ih

lemma reach_target {b pv : ℕ → ℕ → ℤ} {h w : ℕ} {s x : ℕ × ℕ}
    (hr : RevealReach b pv h w s x) : x.1 < h ∧ x.2 < w ∧ HiddenAt pv x := by
  induction hr with
  | base h1 h2 h3 => exact ⟨h1, h2, h3⟩
  | step hq hbz hn hh ih =>
    have hib := neighborCells_inb hn
    exact ⟨hib.1, hib.2, hh⟩

lemma reach_mono {b pv pv' : ℕ → ℕ → ℤ} {h w : ℕ}
    (hmono : ∀ p, HiddenAt pv' p → HiddenAt pv p) {s x : ℕ × ℕ}
    (hr : RevealReach b pv' h w s x) : RevealReach b pv h w s x := by
  induction hr with
  | base h1 h2 h3 => exact RevealReach.base h1 h2 (hmono s h3)
  | step hq hbz hn hh ih => exact RevealReach.step ih hbz hn (hmono _ hh)

lemma reach_trans {b pv : ℕ → ℕ → ℤ} {h w : ℕ} {s q x : ℕ × ℕ}
    (h1 : RevealReach b pv h w s q) (h2 : RevealReach b pv h w q x) :
    RevealReach b pv h w s x := by
  induction h2 with
  | base _ _ _ => exact h1
  | step hq hbz hn hh ih => exact RevealReach.step ih hbz hn hh

lemma reach_nonneg {b pv : ℕ → ℕ → ℤ} {h w : ℕ}
    (H1 : ∀ i j, i < h → j < w → b i j = 0 → ∀ q ∈ neighborCells h w i j, 0 ≤ b q.1 q.2)
    {s x : ℕ × ℕ} (hz : b s.1 s.2 = 0) (hr : RevealReach b pv h w s x) :
    0 ≤ b x.1 x.2 := by
  induction hr with
  | base _ _ _ => exact le_of_eq hz.symm
  | step hq hbz hn hh ih =>
    have hqt := reach_target hq
    exact H1 _ _ hqt.1 hqt.2.1 hbz _ hn

lemma reach_singleton {b pv : ℕ → ℕ → ℤ} {h w : ℕ} {s x : ℕ × ℕ}
    (hnz : b s.1 s.2 ≠ 0) (hr : RevealReach b pv h w s x) : x = s := by
  induction hr with
  | base _ _ _ => rfl
  | step hq hbz hn hh ih => exact absurd (ih ▸ hbz) hnz

lemma revealFold_spec (b : ℕ → ℕ → ℤ) (h w : ℕ)
    (H1 : ∀ i j, i < h → j < w → b i j = 0 → ∀ q ∈ neighborCells h w i j, 0 ≤ b q.1 q.2)
    (f : ℕ)
    (IH : ∀ pv r c, hiddenCount h w pv < f → ∃ D, RevealResult b h w f pv r c D)
    (pv : ℕ → ℕ → ℤ) (r c : ℕ) (hr : r < h) (hc : c < w)
    (hzero : b r c = 0) (hhid : HiddenAt pv (r, c)) (hpvf : hiddenCount h w pv ≤ f) :
    ∀ (L : List (ℕ × ℕ)) (s : ℕ → ℕ → ℤ) (E : ℕ × ℕ → Prop),
      (∀ q ∈ L, q ∈ neighborCells h w r c) →
      (∀ x : ℕ × ℕ, E x → s x.1 x.2 = b x.1 x.2) →
      (∀ x : ℕ × ℕ, ¬ E x → s x.1 x.2 = pv x.1 x.2) →
      (∀ x, E x → RevealReach b pv h w (r, c) x) →
      E (r, c) →
      (∀ y : ℕ × ℕ, E y → b y.1 y.2 = 0 →
        ∀ x ∈ neighborCells h w y.1 y.2, HiddenAt s x → x ∈ L) →
      ∃ D : ℕ × ℕ → Prop,
        (∀ x : ℕ × ℕ, D x →
          (L.foldl (fun t q => revealCell b h w f t q.1 q.2) s) x.1 x.2 = b x.1 x.2) ∧
        (∀ x : ℕ × ℕ, ¬ D x →
          (L.foldl (fun t q => revealCell b h w f t q.1 q.2) s) x.1 x.2 = pv x.1 x.2) ∧
        (∀ x, D x → RevealReach b pv h w (r, c) x) ∧
        (∀ x, E x → D x) ∧
        (∀ y : ℕ × ℕ, D y → b y.1 y.2 = 0 → ∀ x ∈ neighborCells h w y.1 y.2,
          ¬ HiddenAt (L.foldl (fun t q => revealCell b h w f t q.1 q.2) s) x) := by
  intro L
  induction L with
  | nil =>
    intro s E _ hEb hEpv hEreach hErc hclosed
    refine ⟨E, hEb, hEpv, hEreach, fun x hx => hx, ?_⟩
    intro y hy hz x hx hhx
    exact absurd (hclosed y hy hz x hx hhx) (List.not_mem_nil x)
  | cons q L' ihL =>
    intro s E hL hEb hEpv hEreach hErc hclosed
    have hEnn : ∀ x : ℕ × ℕ, E x → 0 ≤ b x.1 x.2 := fun x hx =>
      reach_nonneg H1 hzero (hEreach x hx)
    have hmono_s_pv : ∀ p : ℕ × ℕ, HiddenAt s p → HiddenAt pv p := by
      intro p hp
      by_cases hE : E p
      · have heq := hEb p hE
        have h0 := hEnn p hE
        unfold HiddenAt at hp
        omega
      · have heq := hEpv p hE
        unfold HiddenAt at hp ⊢
        omega
    have hscount : hiddenCount h w s < hiddenCount h w pv := by
      unfold hiddenCount
      apply countP_lt_of_strict ?mono (r, c) (mem_allCells.2 ⟨hr, hc⟩) ?q0 ?p0
      case mono =>
        intro x _ hdx
        simp only [decide_eq_true_eq] at hdx ⊢
        exact hmono_s_pv x hdx
      case q0 =>
        simp only [decide_eq_true_eq]
        exact hhid
      case p0 =>
        simp only [decide_eq_true_eq]
        intro habs
        have heq := hEb (r, c) hErc
        rw [hzero] at heq
        unfold HiddenAt at habs
        omega
    obtain ⟨Dq, hDq1, hDq2, hDq3, hDq4, hDq5⟩ :=
      IH s q.1 q.2 (lt_of_lt_of_le hscount hpvf)
    have hqnbr : q ∈ neighborCells h w r c := hL q (List.mem_cons_self q L')
    have hqnn : 0 ≤ b q.1 q.2 := H1 r c hr hc hzero q hqnbr
    have hqinb := neighborCells_inb hqnbr
    have hDqnn : ∀ x : ℕ × ℕ, Dq x → 0 ≤ b x.1 x.2 := by
      intro x hx
      have hrs := hDq3 x hx
      by_cases hbq : b q.1 q.2 = 0
      · exact reach_nonneg H1 hbq hrs
      · rw [reach_singleton hbq hrs]
        exact hqnn
    have hmono_s1_s : ∀ p : ℕ × ℕ,
        HiddenAt (revealCell b h w f s q.1 q.2) p → HiddenAt s p := by
      intro p hp
      by_cases hD : Dq p
      · have heq := hDq1 p hD
        have h0 := hDqnn p hD
        unfold HiddenAt at hp
        omega
      · have heq := hDq2 p hD
        unfold HiddenAt at hp ⊢
        omega
    have hE'b : ∀ x : ℕ × ℕ, (E x ∨ Dq x) →
        revealCell b h w f s q.1 q.2 x.1 x.2 = b x.1 x.2 := by
      intro x hx
      by_cases hD2 : Dq x
      · exact hDq1 x hD2
      · rcases hx with hE | hD
        · rw [hDq2 x hD2]
          exact hEb x hE
        · exact absurd hD hD2
    have hE'pv : ∀ x : ℕ × ℕ, ¬ (E x ∨ Dq x) →
        revealCell b h w f s q.1 q.2 x.1 x.2 = pv x.1 x.2 := by
      intro x hx
      push_neg at hx
      rw [hDq2 x hx.2]
      exact hEpv x hx.1
    have hE'reach : ∀ x, (E x ∨ Dq x) → RevealReach b pv h w (r, c) x := by
      intro x hx
      rcases hx with hE | hD
      · exact hEreach x hE
      · by_cases hq : HiddenAt pv q
        · have hreach_pv_q : RevealReach b pv h w (r, c) q :=
            RevealReach.step (RevealReach.base hr hc hhid) hzero hqnbr hq
          have hrpv : RevealReach b pv h w q x := reach_mono hmono_s_pv (hDq3 x hD)
          exact reach_trans hreach_pv_q hrpv
        · have hsq := reach_src (hDq3 x hD)
          exact absurd (hmono_s_pv q hsq.2.2) hq
    have hE'closed : ∀ y : ℕ × ℕ, (E y ∨ Dq y) → b y.1 y.2 = 0 →
        ∀ x ∈ neighborCells h w y.1 y.2,
          HiddenAt (revealCell b h w f s q.1 q.2) x → x ∈ L' := by
      intro y hy hby x hx hhx
      rcases hy with hyE | hyD
      · have hhs : HiddenAt s x := hmono_s1_s x hhx
        have hmem := hclosed y hyE hby x hx hhs
        rcases List.mem_cons.1 hmem with rfl | hm'
        · exfalso
          have hqD : Dq x := hDq4 hqinb.1 hqinb.2 hhs
          have heq := hDq1 x hqD
          have h0 := hDqnn x hqD
          unfold HiddenAt at hhx
          omega
        · exact hm'
      · exact absurd hhx (hDq5 y hyD hby x hx)
    obtain ⟨D, hD1, hD2, hD3, hD4, hD5⟩ :=
      ihL (revealCell b h w f s q.1 q.2) (fun x => E x ∨ Dq x)
        (fun p hp => hL p (List.mem_cons_of_mem q hp))
        hE'b hE'pv hE'reach (Or.inl hErc) hE'closed
    exact ⟨D, hD1, hD2, hD3, fun x hx => hD4 x (Or.inl hx), hD5⟩

lemma revealCell_spec (b : ℕ → ℕ → ℤ) (h w : ℕ)
    (H1 : ∀ i j, i < h → j < w → b i j = 0 → ∀ q ∈ neighborCells h w i j, 0 ≤ b q.1 q.2) :
    ∀ (fuel : ℕ) (pv : ℕ → ℕ → ℤ) (r c : ℕ), hiddenCount h w pv < fuel →
      ∃ D, RevealResult b h w fuel pv r c D := by
  intro fuel
  induction fuel with
  | zero => intro pv r c habs; omega
  | succ f ihf =>
    intro pv r c hcount
    by_cases hb : r < h ∧ c < w
    · by_cases hrev : 0 ≤ pv r c
      · have hres := revealCell_noop_nonneg (b := b) (h := h) (w := w) hrev (f + 1)
        refine ⟨fun _ => False, fun x hx => hx.elim, ?_, fun x hx => hx.elim, ?_, fun y hy => hy.elim⟩
        · intro x _
          rw [hres]
        · intro _ _ hhid
          have hlt : pv r c < 0 := hhid.1
          omega
      · by_cases hflag : pv r c = -2
        · have hres := revealCell_noop_flag (b := b) (h := h) (w := w) hflag (f + 1)
          refine ⟨fun _ => False, fun x hx => hx.elim, ?_, fun x hx => hx.elim, ?_,
            fun y hy => hy.elim⟩
          · intro x _
            rw [hres]
          · intro _ _ hhid
            exact absurd hflag hhid.2
        · have hhidrc : HiddenAt pv (r, c) := ⟨not_le.1 hrev, hflag⟩
          by_cases hbz : b r c = 0
          · have hres := revealCell_enter_cascade f hb hrev hflag hbz
            obtain ⟨D, hD1, hD2, hD3, hD4, hD5⟩ :=
              revealFold_spec b h w H1 f ihf pv r c hb.1 hb.2 hbz hhidrc (by omega)
                (neighborCells h w r c) (updateCell pv r c (b r c)) (fun x => x = (r, c))
                (fun q hq => hq)
                (by
                  rintro x rfl
                  exact updateCell_self pv r c (b r c))
                (by
                  intro x hx
                  refine updateCell_other _ ?_
                  rintro ⟨h1, h2⟩
                  exact hx (Prod.ext_iff.2 ⟨h1, h2⟩))
                (by
                  rintro x rfl
                  exact RevealReach.base hb.1 hb.2 hhidrc)
                rfl
                (by
                  rintro y rfl _ x hx _
                  exact hx)
            refine ⟨D, ?_, ?_, hD3, ?_, ?_⟩
            · intro x hx
              rw [hres]
              exact hD1 x hx
            · intro x hx
              rw [hres]
              exact hD2 x hx
            · intro _ _ _
              exact hD4 (r, c) rfl
            · intro y hy hby x hx
              rw [hres]
              exact hD5 y hy hby x hx
          · have hres := revealCell_enter_plain f hb hrev hflag hbz
            refine ⟨fun x => x = (r, c), ?_, ?_, ?_, fun _ _ _ => rfl, ?_⟩
            · rintro x rfl
              rw [hres]
              exact updateCell_self pv r c (b r c)
            · intro x hx
              rw [hres]
              refine updateCell_other _ ?_
              rintro ⟨h1, h2⟩
              exact hx (Prod.ext_iff.2 ⟨h1, h2⟩)
            · rintro x rfl
              exact RevealReach.base hb.1 hb.2 hhidrc
            · rintro y rfl hby
              exact absurd hby hbz
    · have hres := @revealCell_oob b h w pv r c hb (f + 1)
      refine ⟨fun _ => False, fun x hx => hx.elim, ?_, fun x hx => hx.elim, ?_,
        fun y hy => hy.elim⟩
      · intro x _
        rw [hres]
      · intro h1 h2 _
        exact absurd ⟨h1, h2⟩ hb

lemma revealCell_characterization (b : ℕ → ℕ → ℤ) (h w : ℕ)
    (H1 : ∀ i j, i < h → j < w → b i j = 0 → ∀ q ∈ neighborCells h w i j, 0 ≤ b q.1 q.2)
    (fuel : ℕ) (pv : ℕ → ℕ → ℤ) (r c : ℕ) (hfuel : hiddenCount h w pv < fuel) :
    (∀ x : ℕ × ℕ, RevealReach b pv h w (r, c) x →
      revealCell b h w fuel pv r c x.1 x.2 = b x.1 x.2) ∧
    (∀ x : ℕ × ℕ, ¬ RevealReach b pv h w (r, c) x →
      revealCell b h w fuel pv r c x.1 x.2 = pv x.1 x.2) := by
  obtain ⟨D, hD1, hD2, hD3, hD4, hD5⟩ := revealCell_spec b h w H1 fuel pv r c hfuel
  have hDiff : ∀ x, RevealReach b pv h w (r, c) x → D x := by
    intro x hx
    induction hx with
    | base h1 h2 h3 => exact hD4 h1 h2 h3
    | @step q x hq hbz hn hh ih =>
      by_cases hDx : D x
      · exact hDx
      · exfalso
        refine hD5 q ih hbz x hn ?_
        have heq := hD2 x hDx
        exact ⟨by rw [heq]; exact hh.1, by rw [heq]; exact hh.2⟩
  constructor
  · intro x hx
    exact hD1 x (hDiff x hx)
  · intro x hx
    refine hD2 x ?_
    intro hD
    exact hx (hD3 x hD)

/-- C1: for every board produced by `Board(height, width, num_mines)` with a
valid configuration, the solution grid holds exactly `num_mines` MINE
sentinels, and every non-mine cell holds the exact number of MINE cells among
its up-to-8 boundary-clipped Moore neighbors, despite the in-place overwrite
during the `_calculate_numbers` scan.  The guarantees of `random.sample` are
the hypotheses on `mines`. -/
theorem C1_board_generation (h w num_mines : ℕ) (mines : List (ℕ × ℕ))
    (hh : 0 < h) (hw : 0 < w) (hml : 0 < num_mines) (hmu : num_mines < h * w)
    (hlen : mines.length = num_mines) (hnd : mines.Nodup)
    (hin : ∀ p ∈ mines, p.1 < h ∧ p.2 < w) :
    (allCells h w).countP (fun p => decide (boardSolution h w mines p.1 p.2 = -9))
        = num_mines ∧
    ∀ r c, r < h → c < w → boardSolution h w mines r c ≠ -9 →
      boardSolution h w mines r c
        = (countAdjMines (boardSolution h w mines) h w r c : ℤ) := by
  constructor
  · rw [boardSolution_mineCount hnd hin, hlen]
  · intro r c hr hc hnm
    have hmem : (r, c) ∉ mines := fun habs =>
      hnm ((boardSolution_mine_iff h w mines r c).2 habs)
    rw [boardSolution_value hr hc hmem]
    congr 1
    refine countAdjMines_congr ?_
    intro q _
    rw [placeMines_mine_iff, boardSolution_mine_iff]

theorem C1_board_generation_witness :
    ((0 < 2 ∧ 0 < 1) ∧ ([((0 : ℕ), (0 : ℕ))] : List (ℕ × ℕ)).length = 1) ∧
    ((allCells 2 2).countP
        (fun p => decide (boardSolution 2 2 [(0, 0)] p.1 p.2 = -9)) = 1 ∧
      ∀ r c, r < 2 → c < 2 → boardSolution 2 2 [(0, 0)] r c ≠ -9 →
        boardSolution 2 2 [(0, 0)] r c
          = (countAdjMines (boardSolution 2 2 [(0, 0)]) 2 2 r c : ℤ)) :=
  ⟨by decide,
    C1_board_generation 2 2 1 [(0, 0)] (by decide) (by decide) (by decide) (by decide)
      (by decide) (by decide) (by decide)⟩

/-- C2 (counterexample): the claim predicts that revealing the 0-valued,
unflagged cell `(0, 0)` of the 1×9 strip uncovers its whole maximal
8-connected zero component plus border, skipping only FLAGGED cells.  Cell
`(0, 2)` belongs to that component (witnessed by `ZeroConn`) and is not
flagged, yet the code leaves it hidden: the flag on `(0, 1)` blocks the
propagation entirely. -/
theorem C2_reveal_counterexample :
    bC2 0 0 = 0 ∧ pvC2 0 0 = -1 ∧ bC2 0 2 = 0 ∧ pvC2 0 2 = -1 ∧
    ZeroConn bC2 1 9 (0, 0) (0, 2) ∧
    revealCell bC2 1 9 10 pvC2 0 0 0 2 = -1 := by
  refine ⟨by decide, by decide, by decide, by decide, ?_, by decide⟩
  have s1 : ((0 : ℕ), (1 : ℕ)) ∈ neighborCells 1 9 0 0 := by decide
  have s2 : ((0 : ℕ), (2 : ℕ)) ∈ neighborCells 1 9 0 1 := by decide
  exact ZeroConn.step
    (ZeroConn.step (ZeroConn.base (by decide) (by decide)) (by decide) s1)
    (by decide) s2

/-- C2 (amended): revealing an available (in-bounds, HIDDEN, not FLAGGED)
0-valued cell during play reveals exactly the cells cascade-reachable through
available 0-valued cells — the maximal zero region and numbered border of the
subgrid obtained by treating FLAGGED and already-REVEALED cells as walls —
each revealed cell receiving its solution value and every other cell keeping
its view value; re-invoking reveal on any already-revealed cell changes no
state. -/
theorem C2_reveal_flood_fill (b : ℕ → ℕ → ℤ) (h w : ℕ)
    (H1 : ∀ i j, i < h → j < w → b i j = 0 → ∀ q ∈ neighborCells h w i j, 0 ≤ b q.1 q.2)
    (pv : ℕ → ℕ → ℤ) (fuel : ℕ) (r c : ℕ) (hfuel : hiddenCount h w pv < fuel)
    (hr : r < h) (hc : c < w) (hpv : pv r c = -1) (hz : b r c = 0) :
    (∀ i j, RevealReach b pv h w (r, c) (i, j) →
      revealCell b h w fuel pv r c i j = b i j) ∧
    (∀ i j, ¬ RevealReach b pv h w (r, c) (i, j) →
      revealCell b h w fuel pv r c i j = pv i j) ∧
    RevealReach b pv h w (r, c) (r, c) ∧
    (∀ fuel2 i j, 0 ≤ revealCell b h w fuel pv r c i j →
      revealCell b h w fuel2 (revealCell b h w fuel pv r c) i j
        = revealCell b h w fuel pv r c) := by
  obtain ⟨hA, hB⟩ := revealCell_characterization b h w H1 fuel pv r c hfuel
  refine ⟨fun i j hx => hA (i, j) hx, fun i j hx => hB (i, j) hx,
    RevealReach.base hr hc ⟨by rw [hpv]; decide, by rw [hpv]; decide⟩, ?_⟩
  intro fuel2 i j h0
  exact revealCell_noop_nonneg h0 fuel2

theorem C2_reveal_flood_fill_witness :
    (hiddenCount 1 9 (fun _ _ => -1) < 10 ∧ bC2 0 0 = 0) ∧
    ((∀ i j, RevealReach bC2 (fun _ _ => -1) 1 9 (0, 0) (i, j) →
        revealCell bC2 1 9 10 (fun _ _ => -1) 0 0 i j = bC2 i j) ∧
      (∀ i j, ¬ RevealReach bC2 (fun _ _ => -1) 1 9 (0, 0) (i, j) →
        revealCell bC2 1 9 10 (fun _ _ => -1) 0 0 i j = -1) ∧
      RevealReach bC2 (fun _ _ => -1) 1 9 (0, 0) (0, 0) ∧
      (∀ fuel2 i j, 0 ≤ revealCell bC2 1 9 10 (fun _ _ => -1) 0 0 i j →
        revealCell bC2 1 9 fuel2 (revealCell bC2 1 9 10 (fun _ _ => -1) 0 0) i j
          = revealCell bC2 1 9 10 (fun _ _ => -1) 0 0)) :=
  ⟨⟨by decide, by decide⟩,
    C2_reveal_flood_fill bC2 1 9 (boardSolution_WFSol 1 9 [(0, 8)]).2
      (fun _ _ => -1) 10 0 0 (by decide) (by decide) (by decide) rfl (by decide)⟩

lemma checkWin_board (h w m : ℕ) (g : GameState) : (checkWin h w m g).board = g.board := by
  unfold checkWin
  split <;> rfl

lemma checkWin_status_won_iff (h w m : ℕ) (g : GameState)
    (hst : g.status = GStatus.playing) :
    ((checkWin h w m g).status = GStatus.won ↔
      (revealedCount h w g.board.player_view : ℤ) = (h : ℤ) * w - m) := by
  unfold checkWin
  by_cases hc : (revealedCount h w g.board.player_view : ℤ) = (h : ℤ) * w - m
  · rw [if_pos ⟨hst, hc⟩]
    exact ⟨fun _ => hc, fun _ => rfl⟩
  · rw [if_neg (fun hand => hc hand.2)]
    constructor
    · intro habs
      rw [hst] at habs
      exact absurd habs (by decide)
    · intro hcc
      exact absurd hcc hc

lemma checkWin_status_ne_lost (h w m : ℕ) (g : GameState)
    (hst : g.status = GStatus.playing) :
    (checkWin h w m g).status ≠ GStatus.lost := by
  unfold checkWin
  split
  · simp
  · rw [hst]
    decide

lemma onLeftClick_eligible (h w m : ℕ) (boards : ℕ → Board) (rf vf : ℕ)
    (g : GameState) (r c : ℕ)
    (hst : g.status = GStatus.playing) (hpv : g.board.player_view r c = -1) :
    onLeftClick h w m boards rf vf g r c
      = (if (if g.first_click
              then { g with board := regenLoop boards r c rf g.board 0,
                            first_click := false }
              else g).board.board r c = -9
         then gameOverLose (if g.first_click
              then { g with board := regenLoop boards r c rf g.board 0,
                            first_click := false }
              else g)
         else checkWin h w m
           { (if g.first_click
              then { g with board := regenLoop boards r c rf g.board 0,
                            first_click := false }
              else g) with
             board :=
              { (if g.first_click
                 then { g with board := regenLoop boards r c rf g.board 0,
                               first_click := false }
                 else g).board with
                player_view :=
                  revealCell
                    (if g.first_click
                     then { g with board := regenLoop boards r c rf g.board 0,
                                   first_click := false }
                     else g).board.board h w vf
                    (if g.first_click
                     then { g with board := regenLoop boards r c rf g.board 0,
                                   first_click := false }
                     else g).board.player_view r c } }) := by
  unfold onLeftClick
  rw [if_neg (fun hne => hne hst), if_neg (by rw [hpv]; decide),
    if_neg (by rw [hpv]; decide)]

/-- C3: for eligible reveals (playing, target hidden), once the first-click
fix-up has resolved the board `g1`, clicking a MINE cell transitions to LOST
(and not WON) without touching the player view, and clicking a non-mine cell
runs the win check: the resulting status is WON exactly when the revealed
count equals `height*width - num_mines`, and is never LOST — the two terminal
outcomes are mutually exclusive. -/
theorem C3_win_lose_transitions (h w m : ℕ) (boards : ℕ → Board) (rf vf : ℕ)
    (g g1 : GameState) (r c : ℕ)
    (hst : g.status = GStatus.playing) (hpv : g.board.player_view r c = -1)
    (hg1 : g1 = if g.first_click
        then { g with board := regenLoop boards r c rf g.board 0, first_click := false }
        else g) :
    (g1.board.board r c = -9 →
      (onLeftClick h w m boards rf vf g r c).status = GStatus.lost ∧
      (onLeftClick h w m boards rf vf g r c).status ≠ GStatus.won ∧
      (onLeftClick h w m boards rf vf g r c).board.player_view
        = g1.board.player_view) ∧
    (g1.board.board r c ≠ -9 →
      ((onLeftClick h w m boards rf vf g r c).status = GStatus.won ↔
        (revealedCount h w
            (onLeftClick h w m boards rf vf g r c).board.player_view : ℤ)
          = (h : ℤ) * w - m) ∧
      (onLeftClick h w m boards rf vf g r c).status ≠ GStatus.lost) := by
  have hst1 : g1.status = GStatus.playing := by
    rw [hg1]
    by_cases hfc : g.first_click <;> simp [hfc, hst]
  rw [onLeftClick_eligible h w m boards rf vf g r c hst hpv, ← hg1]
  constructor
  · intro hm
    rw [if_pos hm]
    exact ⟨rfl, by simp [gameOverLose], rfl⟩
  · intro hm
    rw [if_neg hm]
    have hst2 : ({ g1 with board :=
        { g1.board with
          player_view := revealCell g1.board.board h w vf g1.board.player_view r c } }
        : GameState).status = GStatus.playing := hst1
    constructor
    · rw [checkWin_board]
      exact checkWin_status_won_iff h w m _ hst2
    · exact checkWin_status_ne_lost h w m _ hst2

theorem C3_win_lose_transitions_witness :
    (gC3W.status = GStatus.playing ∧ gC3W.board.player_view 0 0 = -1) ∧
    ((gC3W.board.board 0 0 = -9 →
      (onLeftClick 1 2 1 boardsC5 5 9 gC3W 0 0).status = GStatus.lost ∧
      (onLeftClick 1 2 1 boardsC5 5 9 gC3W 0 0).status ≠ GStatus.won ∧
      (onLeftClick 1 2 1 boardsC5 5 9 gC3W 0 0).board.player_view
        = gC3W.board.player_view) ∧
    (gC3W.board.board 0 0 ≠ -9 →
      ((onLeftClick 1 2 1 boardsC5 5 9 gC3W 0 0).status = GStatus.won ↔
        (revealedCount 1 2
            (onLeftClick 1 2 1 boardsC5 5 9 gC3W 0 0).board.player_view : ℤ)
          = (1 : ℤ) * 2 - 1) ∧
      (onLeftClick 1 2 1 boardsC5 5 9 gC3W 0 0).status ≠ GStatus.lost)) :=
  ⟨⟨rfl, rfl⟩,
    C3_win_lose_transitions 1 2 1 boardsC5 5 9 gC3W gC3W 0 0 rfl rfl (by rfl)⟩

/-- C6: a reveal is a no-op once the game is terminal, on an already-REVEALED
cell, and on a FLAGGED cell; the flag toggle is a no-op once terminal and on a
REVEALED cell.  In particular no action leaves a terminal state. -/
theorem C6_terminal_noop (h w m : ℕ) (boards : ℕ → Board) (rf vf : ℕ)
    (g : GameState) (r c : ℕ) :
    (g.status ≠ GStatus.playing →
      onLeftClick h w m boards rf vf g r c = g ∧ onRightClick g r c = g) ∧
    (0 ≤ g.board.player_view r c →
      onLeftClick h w m boards rf vf g r c = g ∧ onRightClick g r c = g) ∧
    (g.board.player_view r c = -2 → onLeftClick h w m boards rf vf g r c = g) := by
  refine ⟨?_, ?_, ?_⟩
  · intro hterm
    constructor
    · unfold onLeftClick
      rw [if_pos hterm]
    · unfold onRightClick
      rw [if_pos hterm]
  · intro hrev
    by_cases hterm : g.status ≠ GStatus.playing
    · constructor
      · unfold onLeftClick
        rw [if_pos hterm]
      · unfold onRightClick
        rw [if_pos hterm]
    · constructor
      · unfold onLeftClick
        rw [if_neg hterm, if_neg (by omega), if_pos hrev]
      · unfold onRightClick
        rw [if_neg hterm, if_pos hrev]
  · intro hflag
    by_cases hterm : g.status ≠ GStatus.playing
    · unfold onLeftClick
      rw [if_pos hterm]
    · unfold onLeftClick
      rw [if_neg hterm, if_pos hflag]

theorem C6_terminal_noop_witness :
    (gLostW.status ≠ GStatus.playing ∧
      (onLeftClick 2 2 1 boardsC5 5 9 gLostW 0 0 = gLostW ∧
        onRightClick gLostW 0 0 = gLostW)) ∧
    ((0 : ℤ) ≤ gRevW.board.player_view 1 1 ∧
      (onLeftClick 2 2 1 boardsC5 5 9 gRevW 1 1 = gRevW ∧
        onRightClick gRevW 1 1 = gRevW)) :=
  ⟨⟨by decide, (C6_terminal_noop 2 2 1 boardsC5 5 9 gLostW 0 0).1 (by decide)⟩,
   ⟨by decide, (C6_terminal_noop 2 2 1 boardsC5 5 9 gRevW 1 1).2.1 (by decide)⟩⟩

lemma regenLoop_spec (boards : ℕ → Board) (r c : ℕ) :
    ∀ (fuel : ℕ) (cur : Board) (i : ℕ),
      (cur.board r c ≠ -9 ∨ ∃ k, k < fuel ∧ (boards (i + k)).board r c ≠ -9) →
      (regenLoop boards r c fuel cur i).board r c ≠ -9 ∧
      (regenLoop boards r c fuel cur i = cur ∨
        ∃ j, regenLoop boards r c fuel cur i = boards j) := by
  intro fuel
  induction fuel with
  | zero =>
    intro cur i hterm
    rcases hterm with hc | ⟨k, hk, _⟩
    · exact ⟨hc, Or.inl rfl⟩
    · omega
  | succ f ih =>
    intro cur i hterm
    by_cases hm : cur.board r c = -9
    · have hre : regenLoop boards r c (f + 1) cur i
          = regenLoop boards r c f (boards i) (i + 1) := by
        simp [regenLoop, hm]
      rw [hre]
      have hterm' : (boards i).board r c ≠ -9 ∨
          ∃ k, k < f ∧ (boards (i + 1 + k)).board r c ≠ -9 := by
        rcases hterm with hc | ⟨k, hk, hkk⟩
        · exact absurd hm hc
        · cases k with
          | zero =>
            left
            simpa using hkk
          | succ k' =>
            right
            refine ⟨k', by omega, ?_⟩
            have harith : i + (k' + 1) = i + 1 + k' := by omega
            rwa [harith] at hkk
      obtain ⟨h1, h2⟩ := ih (boards i) (i + 1) hterm'
      refine ⟨h1, ?_⟩
      rcases h2 with he | ⟨j, hj⟩
      · exact Or.inr ⟨i, he⟩
      · exact Or.inr ⟨j, hj⟩
    · have hre : regenLoop boards r c (f + 1) cur i = cur := by
        simp [regenLoop, hm]
      rw [hre]
      exact ⟨hm, Or.inl rfl⟩

lemma regenLoop_form (boards : ℕ → Board) (r c : ℕ) :
    ∀ (fuel : ℕ) (cur : Board) (i : ℕ),
      regenLoop boards r c fuel cur i = cur ∨
        ∃ j, regenLoop boards r c fuel cur i = boards j := by
  intro fuel
  induction fuel with
  | zero => intro cur i; exact Or.inl rfl
  | succ f ih =>
    intro cur i
    by_cases hm : cur.board r c = -9
    · have hre : regenLoop boards r c (f + 1) cur i
          = regenLoop boards r c f (boards i) (i + 1) := by
        simp [regenLoop, hm]
      rw [hre]
      rcases ih (boards i) (i + 1) with he | ⟨j, hj⟩
      · exact Or.inr ⟨i, he⟩
      · exact Or.inr ⟨j, hj⟩
    · have hre : regenLoop boards r c (f + 1) cur i = cur := by
        simp [regenLoop, hm]
      rw [hre]
      exact Or.inl rfl

/-- C4: if the first reveal of a session targets a cell currently holding
MINE, the engine regenerates the solution board until that cell is not a mine
(the hypothesis `hterm` supplies the sampling success the `while` loop waits
for): the resolved board is safe at the clicked cell, still holds exactly
`num_mines` mines, and the click cannot lose. -/
theorem C4_first_click_safety (h w m : ℕ) (minesSeq : ℕ → List (ℕ × ℕ))
    (mines0 : List (ℕ × ℕ)) (rf vf : ℕ) (g : GameState) (r c : ℕ)
    (hsol : g.board.board = boardSolution h w mines0)
    (hnd0 : mines0.Nodup) (hin0 : ∀ p ∈ mines0, p.1 < h ∧ p.2 < w)
    (hlen0 : mines0.length = m)
    (hndS : ∀ i, (minesSeq i).Nodup)
    (hinS : ∀ i, ∀ p ∈ minesSeq i, p.1 < h ∧ p.2 < w)
    (hlenS : ∀ i, (minesSeq i).length = m)
    (hst : g.status = GStatus.playing) (hfc : g.first_click = true)
    (hpv : g.board.player_view r c = -1)
    (hterm : g.board.board r c ≠ -9 ∨
      ∃ k, k < rf ∧ boardSolution h w (minesSeq k) r c ≠ -9) :
    (regenLoop (fun i => mkBoard h w (minesSeq i)) r c rf g.board 0).board r c ≠ -9 ∧
    (allCells h w).countP (fun p =>
      decide ((regenLoop (fun i => mkBoard h w (minesSeq i)) r c rf g.board 0).board
        p.1 p.2 = -9)) = m ∧
    (onLeftClick h w m (fun i => mkBoard h w (minesSeq i)) rf vf g r c).status
      ≠ GStatus.lost := by
  have hspec := regenLoop_spec (fun i => mkBoard h w (minesSeq i)) r c rf g.board 0 ?term
  case term =>
    rcases hterm with hc | ⟨k, hk, hkk⟩
    · exact Or.inl hc
    · exact Or.inr ⟨k, hk, by simpa [mkBoard] using hkk⟩
  obtain ⟨hnm, hform⟩ := hspec
  refine ⟨hnm, ?_, ?_⟩
  · rcases hform with he | ⟨j, hj⟩
    · simp only [he, hsol]
      rw [boardSolution_mineCount hnd0 hin0, hlen0]
    · simp only [hj]
      simp only [mkBoard]
      rw [boardSolution_mineCount (hndS j) (hinS j), hlenS j]
  · rw [onLeftClick_eligible h w m (fun i => mkBoard h w (minesSeq i)) rf vf g r c hst hpv]
    rw [hfc, if_pos rfl]
    rw [if_neg hnm]
    refine checkWin_status_ne_lost h w m _ ?_
    exact hst

theorem C4_first_click_safety_witness :
    (gFreshW.status = GStatus.playing ∧ gFreshW.first_click = true ∧
      gFreshW.board.player_view 0 0 = -1) ∧
    ((regenLoop (fun i => mkBoard 1 3 [((0 : ℕ), (2 : ℕ))]) 0 0 5
        gFreshW.board 0).board 0 0 ≠ -9 ∧
    (allCells 1 3).countP (fun p =>
      decide ((regenLoop (fun i => mkBoard 1 3 [((0 : ℕ), (2 : ℕ))]) 0 0 5
        gFreshW.board 0).board p.1 p.2 = -9)) = 1 ∧
    (onLeftClick 1 3 1 (fun i => mkBoard 1 3 [((0 : ℕ), (2 : ℕ))]) 5 9
        gFreshW 0 0).status ≠ GStatus.lost) :=
  ⟨⟨rfl, rfl, rfl⟩,
    C4_first_click_safety 1 3 1 (fun _ => [(0, 2)]) [(0, 0)] 5 9 gFreshW 0 0 rfl
      (by decide) (by decide) (by decide)
      (fun _ => (by decide : ([((0 : ℕ), (2 : ℕ))] : List (ℕ × ℕ)).Nodup))
      (fun _ => (by decide :
        ∀ p ∈ ([((0 : ℕ), (2 : ℕ))] : List (ℕ × ℕ)), p.1 < 1 ∧ p.2 < 3))
      (fun _ => (by decide : ([((0 : ℕ), (2 : ℕ))] : List (ℕ × ℕ)).length = 1))
      rfl rfl rfl
      (Or.inr ⟨0, by decide, by decide⟩)⟩

/-- C5 (counterexample): the player flagged `(0, 1)` before the first click;
the first click lands on a mine, so the fix-up regenerates — and the flag is
gone afterwards, because the whole `Board` object (player view included) is
replaced.  The claim says this player-view state is preserved unchanged. -/
theorem C5_regen_counterexample :
    gC5.board.player_view 0 1 = -2 ∧ gC5.first_click = true ∧
    gC5.board.board 0 0 = -9 ∧
    (onLeftClick 1 3 1 boardsC5 5 9 gC5 0 0).board.player_view 0 1 ≠ -2 := by
  exact ⟨rfl, rfl, by decide, by decide⟩

/-- C5 (amended): when the first-click fix-up actually regenerates (the
current board holds MINE at the clicked cell), the resolved `Board` is one
freshly produced by the generator, and its player view is the fresh
all-HIDDEN view: any flags placed before the first reveal are discarded, and
the old view is kept only if no regeneration occurred. -/
theorem C5_regen_resets_view (h w : ℕ) (minesSeq : ℕ → List (ℕ × ℕ)) (rf : ℕ)
    (bd : Board) (r c : ℕ) (hmine : bd.board r c = -9)
    (hterm : ∃ k, k < rf ∧ boardSolution h w (minesSeq k) r c ≠ -9) :
    ∃ j, regenLoop (fun i => mkBoard h w (minesSeq i)) r c rf bd 0
        = mkBoard h w (minesSeq j) ∧
      ∀ i' j', (regenLoop (fun i => mkBoard h w (minesSeq i)) r c rf bd 0).player_view i' j'
        = -1 := by
  obtain ⟨hnm, hform⟩ := regenLoop_spec (fun i => mkBoard h w (minesSeq i)) r c rf bd 0
    (Or.inr (by
      obtain ⟨k, hk, hkk⟩ := hterm
      exact ⟨k, hk, by simpa [mkBoard] using hkk⟩))
  rcases hform with he | ⟨j, hj⟩
  · rw [he] at hnm
    exact absurd hmine hnm
  · refine ⟨j, hj, ?_⟩
    intro i' j'
    rw [hj]
    rfl

theorem C5_regen_resets_view_witness :
    (gC5.board.board 0 0 = -9 ∧ boardSolution 1 3 [((0 : ℕ), (2 : ℕ))] 0 0 ≠ -9) ∧
    (∃ j : ℕ, regenLoop (fun i => mkBoard 1 3 [((0 : ℕ), (2 : ℕ))]) 0 0 5
        gC5.board 0 = mkBoard 1 3 [((0 : ℕ), (2 : ℕ))] ∧
      ∀ i' j', (regenLoop (fun i => mkBoard 1 3 [((0 : ℕ), (2 : ℕ))]) 0 0 5
        gC5.board 0).player_view i' j' = -1) :=
  ⟨⟨by decide, by decide⟩,
    C5_regen_resets_view 1 3 (fun _ => [(0, 2)]) 5 gC5.board 0 0 (by decide)
      ⟨0, by decide, by decide⟩⟩

lemma revealCell_PvInv (b : ℕ → ℕ → ℤ) (h w : ℕ) (HWF : WFSol h w b) :
    ∀ (fuel : ℕ) (pv : ℕ → ℕ → ℤ) (r c : ℕ), PvInv pv → b r c ≠ -9 →
      PvInv (revealCell b h w fuel pv r c) := by
  intro fuel
  induction fuel with
  | zero => intro pv r c hpv _; exact hpv
  | succ f ihf =>
    intro pv r c hpv hnm
    by_cases hb : r < h ∧ c < w
    · by_cases h0 : 0 ≤ pv r c
      · rw [revealCell_noop_nonneg (b := b) (h := h) (w := w) h0 (f + 1)]
        exact hpv
      · by_cases h2 : pv r c = -2
        · rw [revealCell_noop_flag (b := b) (h := h) (w := w) h2 (f + 1)]
          exact hpv
        · have hval : 0 ≤ b r c ∧ b r c ≤ 8 := by
            rcases HWF.1 r c hb.1 hb.2 with hm | hok
            · exact absurd hm hnm
            · exact hok
          have hpv1 : PvInv (updateCell pv r c (b r c)) := by
            intro i j
            by_cases hij : i = r ∧ j = c
            · unfold updateCell
              rw [if_pos hij]
              exact Or.inr (Or.inr hval)
            · unfold updateCell
              rw [if_neg hij]
              exact hpv i j
          by_cases hz : b r c = 0
          · rw [revealCell_enter_cascade f hb h0 h2 hz]
            have hsub : ∀ q ∈ neighborCells h w r c, b q.1 q.2 ≠ -9 := by
              intro q hq
              have := HWF.2 r c hb.1 hb.2 hz q hq
              omega
            have hfold : ∀ (L : List (ℕ × ℕ)), (∀ q ∈ L, b q.1 q.2 ≠ -9) →
                ∀ s, PvInv s →
                  PvInv (L.foldl (fun t q => revealCell b h w f t q.1 q.2) s) := by
              intro L
              induction L with
              | nil => intro _ s hs; exact hs
              | cons q L' ihL =>
                intro hLq s hs
                exact ihL (fun p hp => hLq p (List.mem_cons_of_mem q hp)) _
                  (ihf s q.1 q.2 hs (hLq q (List.mem_cons_self q L')))
            exact hfold _ hsub _ hpv1
          · rw [revealCell_enter_plain f hb h0 h2 hz]
            exact hpv1
    · rw [revealCell_oob (b := b) (h := h) (w := w) hb (f + 1)]
      exact hpv

lemma onRightClick_GInv {h w : ℕ} {g : GameState} (r c : ℕ) (hg : GInv h w g) :
    GInv h w (onRightClick g r c) := by
  unfold onRightClick
  split
  · exact hg
  · split
    · exact hg
    · split
      · refine ⟨?_, hg.2⟩
        intro i j
        dsimp only [updateCell]
        by_cases hij : i = r ∧ j = c
        · rw [if_pos hij]
          exact Or.inr (Or.inl rfl)
        · rw [if_neg hij]
          exact hg.1 i j
      · split
        · refine ⟨?_, hg.2⟩
          intro i j
          dsimp only [updateCell]
          by_cases hij : i = r ∧ j = c
          · rw [if_pos hij]
            exact Or.inl rfl
          · rw [if_neg hij]
            exact hg.1 i j
        · exact hg

lemma onLeftClick_GInv {h w m : ℕ} {boards : ℕ → Board} {rf vf : ℕ} {g : GameState}
    (r c : ℕ)
    (hOracle : ∀ i, WFSol h w (boards i).board ∧
      ∀ x y, (boards i).player_view x y = -1)
    (hg : GInv h w g) :
    GInv h w (onLeftClick h w m boards rf vf g r c) := by
  have hstep : ∀ g1 : GameState, GInv h w g1 →
      GInv h w (if g1.board.board r c = -9 then gameOverLose g1
        else checkWin h w m
          { g1 with board :=
            { g1.board with
              player_view := revealCell g1.board.board h w vf g1.board.player_view r c } }) := by
    intro g1 hgg1
    split
    · exact hgg1
    · next hnm =>
      refine ⟨?_, ?_⟩
      · rw [checkWin_board]
        exact revealCell_PvInv _ h w hgg1.2 vf _ r c hgg1.1 hnm
      · rw [checkWin_board]
        exact hgg1.2
  unfold onLeftClick
  split
  · exact hg
  · split
    · exact hg
    · split
      · exact hg
      · refine hstep _ ?_
        split
        · rcases regenLoop_form boards r c rf g.board 0 with he | ⟨j, hj⟩
          · rw [he]
            exact hg
          · rw [hj]
            refine ⟨?_, (hOracle j).1⟩
            intro i' j'
            rw [(hOracle j).2 i' j']
            exact Or.inl rfl
        · exact hg

lemma runGame_GInv (h w m : ℕ) (boards : ℕ → Board) (rf vf : ℕ)
    (hOracle : ∀ i, WFSol h w (boards i).board ∧
      ∀ x y, (boards i).player_view x y = -1) :
    ∀ (acts : List GAction) (g : GameState), GInv h w g →
      GInv h w (runGame h w m boards rf vf g acts) := by
  intro acts
  induction acts with
  | nil => intro g hg; exact hg
  | cons a t ih =>
    intro g hg
    refine ih _ ?_
    cases a with
    | left r c => exact onLeftClick_GInv r c hOracle hg
    | flag r c => exact onRightClick_GInv r c hg

/-- C10: from any fresh session (all-HIDDEN view, well-formed generated
boards), after any sequence of left and right clicks the player view never
holds the MINE sentinel: every cell is HIDDEN, FLAGGED, or a revealed count
in `[0, 8]` — reveals are only entered on non-mine targets and cascades only
step to neighbors of 0-valued cells, which have no adjacent mines. -/
theorem C10_player_view_no_mine (h w m : ℕ) (boards : ℕ → Board) (rf vf : ℕ)
    (g0 : GameState) (acts : List GAction)
    (hOracle : ∀ i, WFSol h w (boards i).board ∧
      ∀ x y, (boards i).player_view x y = -1)
    (hg0pv : ∀ i j, g0.board.player_view i j = -1)
    (hg0b : WFSol h w g0.board.board) :
    ∀ i j, (runGame h w m boards rf vf g0 acts).board.player_view i j ≠ -9 ∧
      (0 ≤ (runGame h w m boards rf vf g0 acts).board.player_view i j →
        (runGame h w m boards rf vf g0 acts).board.player_view i j ≤ 8) := by
  have hInv := runGame_GInv h w m boards rf vf hOracle acts g0
    ⟨fun i j => Or.inl (hg0pv i j), hg0b⟩
  intro i j
  rcases hInv.1 i j with h1 | h2 | h3 <;>
    constructor <;> omega

theorem C10_player_view_no_mine_witness :
    ((∀ i j, gFreshW.board.player_view i j = -1) ∧ gFreshW.status = GStatus.playing) ∧
    (∀ i j,
      (runGame 1 3 1 boardsC5 5 9 gFreshW
        [GAction.left 0 0, GAction.flag 0 2]).board.player_view i j ≠ -9 ∧
      (0 ≤ (runGame 1 3 1 boardsC5 5 9 gFreshW
          [GAction.left 0 0, GAction.flag 0 2]).board.player_view i j →
        (runGame 1 3 1 boardsC5 5 9 gFreshW
          [GAction.left 0 0, GAction.flag 0 2]).board.player_view i j ≤ 8)) :=
  ⟨⟨fun i j => rfl, rfl⟩,
    C10_player_view_no_mine 1 3 1 boardsC5 5 9 gFreshW
      [GAction.left 0 0, GAction.flag 0 2]
      (fun i => ⟨boardSolution_WFSol 1 3 [(0, 2)], fun x y => rfl⟩)
      (fun i j => rfl)
      (boardSolution_WFSol 1 3 [(0, 0)])⟩

lemma sum_map_of_mem_nodup {l : List (ℕ × ℕ)} {x : ℕ × ℕ} (f : ℕ × ℕ → ℕ)
    (hnd : l.Nodup) (hx : x ∈ l) :
    (l.map f).sum = f x + ((l.filter (fun q => decide (q ≠ x))).map f).sum := by
  induction l with
  | nil => cases hx
  | cons a t ih =>
    rcases List.mem_cons.1 hx with rfl | hxt
    · have hxnot : x ∉ t := (List.nodup_cons.1 hnd).1
      have hfilt : t.filter (fun q => !(decide (q = x))) = t :=
        List.filter_eq_self.2 (fun q hq => by
          have hqx : q ≠ x := fun he => hxnot (he ▸ hq)
          simp [hqx])
      simp [List.filter_cons, hfilt]
    · have hane : a ≠ x := fun he => (List.nodup_cons.1 hnd).1 (he ▸ hxt)
      have ih' := ih (List.nodup_cons.1 hnd).2 hxt
      have hcond : (decide (a ≠ x)) = true := decide_eq_true hane
      simp only [List.map_cons, List.sum_cons, List.filter_cons, hcond, if_true]
      omega

/-- C8 (amended): the per-cell contribution of one trial to the heatmap
accumulator — the full 3×3 convolution with zero padding — equals the Moore
neighborhood mine count plus the cell's own mine indicator: the kernel does
not exclude the center cell. -/
theorem C8_heatmap_contribution (m : ℕ → ℕ → ℕ) (h w r c : ℕ)
    (hr : r < h) (hc : c < w) :
    convolveAt m h w r c = mooreCount m h w r c + m r c := by
  unfold convolveAt mooreCount neighborCells
  rw [sum_map_of_mem_nodup (fun q => m q.1 q.2) (window_nodup h w r c)
    (center_mem_window hr hc)]
  dsimp only
  omega

/-- C8 (counterexample): one trial on a 2×2 board with a single mine at
`(0, 0)`.  The heatmap accumulator at `(0, 0)` receives 1 (the convolution
window includes the cell itself), but the number of mines in the Moore
neighborhood of `(0, 0)` — its three actual neighbors — is 0. -/
theorem C8_heatmap_counterexample :
    (analyticsStep 2 2 ⟨[], fun _ => 0, [], fun _ _ => 0, [], [], []⟩
        [(0, 0)]).neighborhoodSum 0 0 = 1 ∧
    convolveAt (mineMap (boardSolution 2 2 [(0, 0)])) 2 2 0 0 = 1 ∧
    mooreCount (mineMap (boardSolution 2 2 [(0, 0)])) 2 2 0 0 = 0 := by
  have hconv : convolveAt (mineMap (boardSolution 2 2 [(0, 0)])) 2 2 0 0 = 1 := by decide
  refine ⟨?_, hconv, by decide⟩
  show (0 : ℚ) + (convolveAt (mineMap (boardSolution 2 2 [(0, 0)])) 2 2 0 0 : ℚ) = 1
  rw [hconv]
  norm_num

theorem C8_heatmap_contribution_witness :
    ((0 : ℕ) < 2 ∧ (0 : ℕ) < 2) ∧
    convolveAt (mineMap (boardSolution 2 2 [(0, 0)])) 2 2 0 0
      = mooreCount (mineMap (boardSolution 2 2 [(0, 0)])) 2 2 0 0
        + mineMap (boardSolution 2 2 [(0, 0)]) 0 0 :=
  ⟨⟨by decide, by decide⟩,
    C8_heatmap_contribution (mineMap (boardSolution 2 2 [(0, 0)])) 2 2 0 0
      (by decide) (by decide)⟩

/-- C9: aggregating statistics over zero trials returns empty per-trial
sequences, an all-zero per-value histogram, and a density map whose every
entry is the defined not-a-number result (numpy float division by zero yields
NaN with a warning, never an exception), so the caller is not crashed by a
division fault. -/
theorem C9_zero_trials (h w : ℕ) (trials : List (List (ℕ × ℕ)))
    (htrials : trials.length = 0) :
    (generateAnalyticsData h w trials).whiteCellCounts = [] ∧
    (∀ j, (generateAnalyticsData h w trials).numberCounts j = 0) ∧
    (generateAnalyticsData h w trials).clusterCounts = [] ∧
    (∀ i j, (generateAnalyticsData h w trials).neighborhoodAvg i j = none) ∧
    (generateAnalyticsData h w trials).largestOpeningSizes = [] ∧
    (generateAnalyticsData h w trials).edgeMineCounts = [] ∧
    (generateAnalyticsData h w trials).edgeZeroCounts = [] := by
  have htr : trials = [] := List.length_eq_zero.1 htrials
  subst htr
  exact ⟨rfl, fun j => rfl, rfl, fun i j => rfl, rfl, rfl, rfl⟩

theorem C9_zero_trials_witness :
    (([] : List (List (ℕ × ℕ))).length = 0) ∧
    ((generateAnalyticsData 9 9 []).whiteCellCounts = [] ∧
    (∀ j, (generateAnalyticsData 9 9 []).numberCounts j = 0) ∧
    (generateAnalyticsData 9 9 []).clusterCounts = [] ∧
    (∀ i j, (generateAnalyticsData 9 9 []).neighborhoodAvg i j = none) ∧
    (generateAnalyticsData 9 9 []).largestOpeningSizes = [] ∧
    (generateAnalyticsData 9 9 []).edgeMineCounts = [] ∧
    (generateAnalyticsData 9 9 []).edgeZeroCounts = []) :=
  ⟨rfl, C9_zero_trials 9 9 [] rfl⟩

lemma countEdgeMines_eq_countP (b : ℕ → ℕ → ℤ) (h w : ℕ) :
    countEdgeMines b h w = (edgeCells h w).countP (fun p => decide (b p.1 p.2 = -9)) := by
  simp only [countEdgeMines, edgeCells, List.countP_append, List.countP_map]
  simp [Function.comp_def]

lemma countEdgeZeros_eq_countP (b : ℕ → ℕ → ℤ) (h w : ℕ) :
    countEdgeZeros b h w = (edgeCells h w).countP (fun p => decide (b p.1 p.2 = 0)) := by
  simp only [countEdgeZeros, edgeCells, List.countP_append, List.countP_map]
  simp [Function.comp_def]

lemma mem_edgeCells {h w : ℕ} (hh : 2 ≤ h) (hw : 2 ≤ w) {p : ℕ × ℕ} :
    p ∈ edgeCells h w ↔ IsBorder h w p := by
  obtain ⟨i, j⟩ := p
  simp only [edgeCells, List.mem_append, List.mem_map, List.mem_range, mem_rangeFromTo,
    Prod.mk.injEq, IsBorder]
  constructor
  · rintro (((⟨j', hj', rfl, rfl⟩ | ⟨j', hj', rfl, rfl⟩) |
      ⟨i', hi', rfl, rfl⟩) | ⟨i', hi', rfl, rfl⟩) <;>
      refine ⟨by omega, by omega, by omega⟩
  · rintro ⟨hi, hj, hb⟩
    by_cases hi0 : i = 0
    · exact Or.inl (Or.inl (Or.inl ⟨j, hj, hi0.symm, rfl⟩))
    · by_cases hih : i = h - 1
      · exact Or.inl (Or.inl (Or.inr ⟨j, hj, hih.symm, rfl⟩))
      · rcases hb with h0 | h1 | h2 | h3
        · exact absurd h0 hi0
        · exact absurd h1 hih
        · exact Or.inl (Or.inr ⟨i, ⟨by omega, by omega⟩, rfl, h2.symm⟩)
        · exact Or.inr ⟨i, ⟨by omega, by omega⟩, rfl, h3.symm⟩

lemma edgeCells_nodup {h w : ℕ} (hh : 2 ≤ h) (hw : 2 ≤ w) : (edgeCells h w).Nodup := by
  have n1 : ((List.range w).map (fun j => ((0 : ℕ), j))).Nodup :=
    (List.nodup_range w).map (fun a b hab => by simpa using hab)
  have n2 : ((List.range w).map (fun j => (h - 1, j))).Nodup :=
    (List.nodup_range w).map (fun a b hab => by simpa using hab)
  have n3 : ((rangeFromTo 1 (h - 1)).map (fun i => (i, (0 : ℕ)))).Nodup :=
    (rangeFromTo_nodup 1 (h - 1)).map (fun a b hab => by simpa using hab)
  have n4 : ((rangeFromTo 1 (h - 1)).map (fun i => (i, w - 1))).Nodup :=
    (rangeFromTo_nodup 1 (h - 1)).map (fun a b hab => by simpa using hab)
  have d12 : ((List.range w).map (fun j => ((0 : ℕ), j))).Disjoint
      ((List.range w).map (fun j => (h - 1, j))) := by
    intro x hx1 hx2
    simp only [List.mem_map, List.mem_range] at hx1 hx2
    obtain ⟨a, _, rfl⟩ := hx1
    obtain ⟨a', _, he⟩ := hx2
    have h1 := congrArg Prod.fst he
    simp at h1
    omega
  have d13 : ((List.range w).map (fun j => ((0 : ℕ), j))).Disjoint
      ((rangeFromTo 1 (h - 1)).map (fun i => (i, (0 : ℕ)))) := by
    intro x hx1 hx2
    simp only [List.mem_map, List.mem_range, mem_rangeFromTo] at hx1 hx2
    obtain ⟨a, _, rfl⟩ := hx1
    obtain ⟨a', ha', he⟩ := hx2
    have h1 := congrArg Prod.fst he
    simp at h1
    omega
  have d14 : ((List.range w).map (fun j => ((0 : ℕ), j))).Disjoint
      ((rangeFromTo 1 (h - 1)).map (fun i => (i, w - 1))) := by
    intro x hx1 hx2
    simp only [List.mem_map, List.mem_range, mem_rangeFromTo] at hx1 hx2
    obtain ⟨a, _, rfl⟩ := hx1
    obtain ⟨a', ha', he⟩ := hx2
    have h1 := congrArg Prod.fst he
    simp at h1
    omega
  have d23 : ((List.range w).map (fun j => (h - 1, j))).Disjoint
      ((rangeFromTo 1 (h - 1)).map (fun i => (i, (0 : ℕ)))) := by
    intro x hx1 hx2
    simp only [List.mem_map, List.mem_range, mem_rangeFromTo] at hx1 hx2
    obtain ⟨a, _, rfl⟩ := hx1
    obtain ⟨a', ha', he⟩ := hx2
    have h1 := congrArg Prod.fst he
    simp at h1
    omega
  have d24 : ((List.range w).map (fun j => (h - 1, j))).Disjoint
      ((rangeFromTo 1 (h - 1)).map (fun i => (i, w - 1))) := by
    intro x hx1 hx2
    simp only [List.mem_map, List.mem_range, mem_rangeFromTo] at hx1 hx2
    obtain ⟨a, _, rfl⟩ := hx1
    obtain ⟨a', ha', he⟩ := hx2
    have h1 := congrArg Prod.fst he
    simp at h1
    omega
  have d34 : ((rangeFromTo 1 (h - 1)).map (fun i => (i, (0 : ℕ)))).Disjoint
      ((rangeFromTo 1 (h - 1)).map (fun i => (i, w - 1))) := by
    intro x hx1 hx2
    simp only [List.mem_map, mem_rangeFromTo] at hx1 hx2
    obtain ⟨a, _, rfl⟩ := hx1
    obtain ⟨a', ha', he⟩ := hx2
    have h1 := congrArg Prod.snd he
    simp at h1
    omega
  unfold edgeCells
  rw [List.nodup_append]
  refine ⟨?_, n4, ?_⟩
  · rw [List.nodup_append]
    refine ⟨?_, n3, ?_⟩
    · rw [List.nodup_append]
      exact ⟨n1, n2, d12⟩
    · intro x hx12 hx3
      rcases List.mem_append.1 hx12 with hx1 | hx2
      · exact d13 hx1 hx3
      · exact d23 hx2 hx3
  · intro x hx123 hx4
    rcases List.mem_append.1 hx123 with hx12 | hx3
    · rcases List.mem_append.1 hx12 with hx1 | hx2
      · exact d14 hx1 hx4
      · exact d24 hx2 hx4
    · exact d34 hx3 hx4

lemma countP_edgeCells_eq {h w : ℕ} (hh : 2 ≤ h) (hw : 2 ≤ w) (p : ℕ × ℕ → Bool) :
    (edgeCells h w).countP p
      = (allCells h w).countP (fun q => p q && decide (IsBorder h w q)) := by
  have hperm : (edgeCells h w).Perm
      ((allCells h w).filter (fun q => decide (IsBorder h w q))) := by
    apply List.perm_of_nodup_nodup_toFinset_eq (edgeCells_nodup hh hw)
      ((allCells_nodup h w).filter _)
    ext x
    simp only [List.mem_toFinset, List.mem_filter, mem_allCells, decide_eq_true_eq,
      mem_edgeCells hh hw]
    constructor
    · intro hx
      exact ⟨⟨hx.1, hx.2.1⟩, hx⟩
    · intro hx
      exact hx.2
  rw [hperm.countP_eq, List.countP_filter]

/-- C7 (counterexample): on a 1×2 grid (a legal configuration: one mine in
two cells) the first-row slice and the last-row slice are the same row, so
the border mine is counted twice by `_count_edge_mines`, while the border
holds it only once. -/
theorem C7_edge_counterexample :
    countEdgeMines (boardSolution 1 2 [(0, 0)]) 1 2 = 2 ∧
    (allCells 1 2).countP (fun q =>
      decide (boardSolution 1 2 [(0, 0)] q.1 q.2 = -9) && decide (IsBorder 1 2 q)) = 1 := by
  decide

/-- C7 (amended): for grids with `height ≥ 2` and `width ≥ 2`, the four edge
slices cover every border cell exactly once — the slice-sum counters equal a
single scan over the grid counting border cells with the tested value, the
scanned cell list is duplicate-free, and no border cell is missed. -/
theorem C7_edge_counts_border_once (b : ℕ → ℕ → ℤ) (h w : ℕ)
    (hh : 2 ≤ h) (hw : 2 ≤ w) :
    countEdgeMines b h w
      = (allCells h w).countP (fun q =>
          decide (b q.1 q.2 = -9) && decide (IsBorder h w q)) ∧
    countEdgeZeros b h w
      = (allCells h w).countP (fun q =>
          decide (b q.1 q.2 = 0) && decide (IsBorder h w q)) ∧
    (edgeCells h w).Nodup ∧
    (∀ p : ℕ × ℕ, IsBorder h w p → p ∈ edgeCells h w) := by
  refine ⟨?_, ?_, edgeCells_nodup hh hw, ?_⟩
  · rw [countEdgeMines_eq_countP, countP_edgeCells_eq hh hw]
  · rw [countEdgeZeros_eq_countP, countP_edgeCells_eq hh hw]
  · intro p hp
    exact (mem_edgeCells hh hw).2 hp

theorem C7_edge_counts_border_once_witness :
    ((2 : ℕ) ≤ 2 ∧ (2 : ℕ) ≤ 2) ∧
    (countEdgeMines (boardSolution 2 2 [(0, 0)]) 2 2
      = (allCells 2 2).countP (fun q =>
          decide (boardSolution 2 2 [(0, 0)] q.1 q.2 = -9) && decide (IsBorder 2 2 q)) ∧
    countEdgeZeros (boardSolution 2 2 [(0, 0)]) 2 2
      = (allCells 2 2).countP (fun q =>
          decide (boardSolution 2 2 [(0, 0)] q.1 q.2 = 0) && decide (IsBorder 2 2 q)) ∧
    (edgeCells 2 2).Nodup ∧
    (∀ p : ℕ × ℕ, IsBorder 2 2 p → p ∈ edgeCells 2 2)) :=
  ⟨⟨by decide, by decide⟩,
    C7_edge_counts_border_once (boardSolution 2 2 [(0, 0)]) 2 2 (by decide) (by decide)⟩

end Minesweeper
